import Mathlib

/-!
# polatory: the direct RBF interpolation solver

A shallow embedding of `polatory/interpolation/rbf_direct_solver.hpp` in exact
arithmetic over a field `K` (the template parameter `Floating`, with the casts
to and from `double` read as the identity).

* Eigen's dense vectors and matrices are records of their sizes and a total
  coefficient function on natural-number indices.
* `for` loops are folds over the index range with explicit updates.
* `std::shuffle` is an input of `setup`: the shuffled index vector.
* The kernel (`rbf::rbf_base`) and the polynomial bases (`polynomial::...`) are
  collaborators whose headers are not among the sources; they enter as records
  of functions.
* The method `solve` is embedded twice. `solve` is its arithmetic on a solver
  that has been set up, with the decompositions read as exact linear solving;
  the only failure it knows is the length assertion. `solve_checked` is the
  method as the library runs it: every read of a `std::vector` or of an Eigen
  object outside its bounds, and every size or initialisation assertion of
  Eigen, ends the call without a result, and the LDLT decomposition is Eigen's
  algorithm (`LDLT.unblocked`, `LDLT.solve_impl`), which pivots on the diagonal
  only and does not solve every invertible system.

The first part of the file holds the definitions, the second part the theorems.
-/

namespace polatory

/-! ## Machine arithmetic and loops -/

/-- Subtraction of two `size_t` values (64 bit): wraps around below zero. -/
def size_t_sub (a b : Nat) : Nat :=
  if b ≤ a then a - b else a + 2 ^ 64 - b

/-- The loop `for (size_t i = lo; i < hi; i++) st = body i st`. -/
def forLoop {σ : Type} (lo hi : Nat) (body : Nat → σ → σ) (init : σ) : σ :=
  (List.range' lo (hi - lo)).foldl (fun st i => body i st) init

/-! ## Eigen vectors and matrices -/

/-- The type `Eigen::Matrix<Floating, 3, 1>`. -/
abbrev Vector3F (K : Type) := K × K × K

/-- The type `Eigen::Matrix<Floating, Eigen::Dynamic, 1>`. -/
structure VectorXF (K : Type) where
  size : Nat
  coeff : Nat → K

/-- The type `Eigen::Matrix<Floating, Eigen::Dynamic, Eigen::Dynamic>`. -/
structure MatrixXF (K : Type) where
  rows : Nat
  cols : Nat
  coeff : Nat → Nat → K

namespace VectorXF

variable {K : Type} [Field K]

/-- Storage of a vector `VectorXF(n)`; the coefficients read as zero until written. -/
def alloc (n : Nat) : VectorXF K := ⟨n, fun _ => 0⟩

/-- The vector `VectorXF::Zero(n)`. -/
def zero (n : Nat) : VectorXF K := ⟨n, fun _ => 0⟩

/-- The assignment `v(i) = x`. -/
def set (v : VectorXF K) (i : Nat) (x : K) : VectorXF K :=
  ⟨v.size, fun k => if k = i then x else v.coeff k⟩

/-- The block `v.head(n)`. -/
def head (v : VectorXF K) (n : Nat) : VectorXF K := ⟨n, v.coeff⟩

/-- The block `v.tail(n)`. -/
def tail (v : VectorXF K) (n : Nat) : VectorXF K :=
  ⟨n, fun i => v.coeff (v.size - n + i)⟩

/-- The sum `v + w` (also `v += w`). -/
def add (v w : VectorXF K) : VectorXF K :=
  ⟨v.size, fun i => v.coeff i + w.coeff i⟩

/-- The difference `v - w`. -/
def sub (v w : VectorXF K) : VectorXF K :=
  ⟨v.size, fun i => v.coeff i - w.coeff i⟩

/-- The block assignment `v.head(n) = w`. -/
def setHead (v : VectorXF K) (n : Nat) (w : VectorXF K) : VectorXF K :=
  ⟨v.size, fun i => if i < n then w.coeff i else v.coeff i⟩

/-- The block assignment `v.segment(start, n) = w`. -/
def setSegment (v : VectorXF K) (start n : Nat) (w : VectorXF K) : VectorXF K :=
  ⟨v.size, fun i => if start ≤ i ∧ i < start + n then w.coeff (i - start) else v.coeff i⟩

/-- The block assignment `v.tail(n) = w`. -/
def setTail (v : VectorXF K) (n : Nat) (w : VectorXF K) : VectorXF K :=
  ⟨v.size, fun i =>
    if v.size - n ≤ i ∧ i < v.size then w.coeff (i - (v.size - n)) else v.coeff i⟩

end VectorXF

namespace MatrixXF

variable {K : Type} [Field K]

/-- The default-constructed matrix `MatrixXF()`, of size zero. -/
def empty : MatrixXF K := ⟨0, 0, fun _ _ => 0⟩

/-- Storage of a matrix `MatrixXF a(r, c)`; the coefficients read as zero until written. -/
def alloc (r c : Nat) : MatrixXF K := ⟨r, c, fun _ _ => 0⟩

/-- The assignment `a(i, j) = x`. -/
def set (a : MatrixXF K) (i j : Nat) (x : K) : MatrixXF K :=
  ⟨a.rows, a.cols, fun r c => if r = i ∧ c = j then x else a.coeff r c⟩

/-- The negation `-a`. -/
def neg (a : MatrixXF K) : MatrixXF K :=
  ⟨a.rows, a.cols, fun i j => - a.coeff i j⟩

/-- The sum `a + b` (also `a += b`). -/
def add (a b : MatrixXF K) : MatrixXF K :=
  ⟨a.rows, a.cols, fun i j => a.coeff i j + b.coeff i j⟩

/-- The product `a * b`. -/
def mul (a b : MatrixXF K) : MatrixXF K :=
  ⟨a.rows, b.cols, fun i j => ∑ k in Finset.range a.cols, a.coeff i k * b.coeff k j⟩

/-- The product `a * v` of a matrix and a vector. -/
def mulVec (a : MatrixXF K) (v : VectorXF K) : VectorXF K :=
  ⟨a.rows, fun i => ∑ k in Finset.range a.cols, a.coeff i k * v.coeff k⟩

/-- The transpose `a.transpose()`. -/
def transpose (a : MatrixXF K) : MatrixXF K :=
  ⟨a.cols, a.rows, fun i j => a.coeff j i⟩

/-- The block `a.leftCols(n)`. -/
def leftCols (a : MatrixXF K) (n : Nat) : MatrixXF K :=
  ⟨a.rows, n, a.coeff⟩

/-- The block `a.rightCols(n)`. -/
def rightCols (a : MatrixXF K) (n : Nat) : MatrixXF K :=
  ⟨a.rows, n, fun i j => a.coeff i (a.cols - n + j)⟩

/-- The block `a.topRows(n)`. -/
def topRows (a : MatrixXF K) (n : Nat) : MatrixXF K :=
  ⟨n, a.cols, a.coeff⟩

/-- The block `a.bottomRows(n)`. -/
def bottomRows (a : MatrixXF K) (n : Nat) : MatrixXF K :=
  ⟨n, a.cols, fun i j => a.coeff (a.rows - n + i) j⟩

/-- The leading `n`-by-`n` block as a matrix over `Fin n`. -/
def toMatrix (a : MatrixXF K) (n : Nat) : Matrix (Fin n) (Fin n) K :=
  Matrix.of fun i j => a.coeff i.val j.val

end MatrixXF

/-! ## Exact linear solving (Eigen's decompositions) -/

section Decompositions

variable {K : Type} [Field K]

/-- Exact solution of the square system `a x = b` by Cramer's rule: what
decomposing `a` and solving against `b` yields in exact arithmetic whenever
`a` is invertible. -/
def linsolve (a : MatrixXF K) (b : VectorXF K) : VectorXF K :=
  let n := a.cols
  let x : Fin n → K := (a.toMatrix n).det⁻¹ • (a.toMatrix n).cramer (fun i => b.coeff i.val)
  ⟨n, fun i => if h : i < n then x ⟨i, h⟩ else 0⟩

/-- The type `Eigen::LDLT<MatrixXF>`: the decomposed matrix, if any. -/
structure LDLT (K : Type) where
  isInitialized : Bool
  matrix : MatrixXF K

/-- The type `Eigen::PartialPivLU<MatrixXF>`: the decomposed matrix, if any. -/
structure PartialPivLU (K : Type) where
  isInitialized : Bool
  matrix : MatrixXF K

/-- The default-constructed `Eigen::LDLT<MatrixXF>()`. -/
def LDLT.empty : LDLT K := ⟨false, MatrixXF.empty⟩

/-- The default-constructed `Eigen::PartialPivLU<MatrixXF>()`. -/
def PartialPivLU.empty : PartialPivLU K := ⟨false, MatrixXF.empty⟩

/-- The decomposition `a.ldlt()`. -/
def MatrixXF.ldlt (a : MatrixXF K) : LDLT K := ⟨true, a⟩

/-- The decomposition `a.partialPivLu()`. -/
def MatrixXF.partialPivLu (a : MatrixXF K) : PartialPivLU K := ⟨true, a⟩

/-- The call `ldlt.solve(b)` for a decomposition that succeeded: the exact solution. What
Eigen's algorithm returns on every matrix is `LDLT.solve_impl`. -/
def LDLT.solve (d : LDLT K) (b : VectorXF K) : VectorXF K := linsolve d.matrix b

/-- The call `lu.solve(b)`. -/
def PartialPivLU.solve (d : PartialPivLU K) (b : VectorXF K) : VectorXF K :=
  linsolve d.matrix b

/-- The call `a.fullPivLu().solve(b)`. -/
def MatrixXF.fullPivLu_solve (a : MatrixXF K) (b : VectorXF K) : VectorXF K :=
  linsolve a b

end Decompositions

/-! ## Eigen's LDLT algorithm -/

section EigenLDLT

variable {K : Type} [LinearOrderedField K]

namespace LDLT

/-- The members `m_matrix` and `m_transpositions` of an `Eigen::LDLT` after `compute`: the
strictly lower part of `matrix` holds `L`, its diagonal holds `D`. -/
structure factors (K : Type) where
  matrix : Nat → Nat → K
  transpositions : Nat → Nat

/-- The index found by `mat.diagonal().tail(size - k).cwiseAbs().maxCoeff(&index)`, plus
`k`: the first index among `k .. size - 1` at which the largest absolute value of a
diagonal entry is attained. -/
def index_of_biggest_in_corner (mat : Nat → Nat → K) (k size : Nat) : Nat :=
  forLoop (k + 1) size (fun i best => if |mat best best| < |mat i i| then i else best) k

/-- The transposition of the rows and columns `k < p` applied to the lower triangular
storage: `mat.row(k).head(k).swap(mat.row(p).head(k))`,
`mat.col(k).tail(s).swap(mat.col(p).tail(s))` with `s = size - p - 1`,
`swap(mat(k, k), mat(p, p))`, and `swap(mat(i, k), mat(p, i))` for `k < i < p`. -/
def swap_lower (mat : Nat → Nat → K) (k p size : Nat) : Nat → Nat → K := fun i j =>
  if i = k ∧ j < k then mat p j
  else if i = p ∧ j < k then mat k j
  else if p < i ∧ i < size ∧ j = k then mat i p
  else if p < i ∧ i < size ∧ j = p then mat i k
  else if i = k ∧ j = k then mat p p
  else if i = p ∧ j = p then mat k k
  else if k < i ∧ i < p ∧ j = k then mat p i
  else if i = p ∧ k < j ∧ j < p then mat j k
  else mat i j

/-- One pass `k` of the loop of `ldlt_inplace<Lower>::unblocked`: the largest remaining
diagonal entry is moved to position `k`, the entry `mat(k, k)` and the column below it are
updated with the columns already computed (`temp.head(k) = D.head(k) * A10^T`,
`mat(k, k) -= A10 * temp.head(k)`, `A21 -= A20 * temp.head(k)`), and the column is divided
by the pivot `mat(k, k)` when the pivot is not zero (`pivot_is_valid`). -/
def unblocked_step (size k : Nat) (f : factors K) : factors K :=
  let p := index_of_biggest_in_corner f.matrix k size
  let mat := if k ≠ p then swap_lower f.matrix k p size else f.matrix
  let temp : Nat → K := fun j => mat j j * mat k j
  let akk := mat k k - ∑ j in Finset.range k, mat k j * temp j
  let a21 : Nat → K := fun i => mat i k - ∑ j in Finset.range k, mat i j * temp j
  { matrix := fun i j =>
      if i = k ∧ j = k then akk
      else if k < i ∧ i < size ∧ j = k then (if 0 < |akk| then a21 i / akk else a21 i)
      else mat i j
    transpositions := fun t => if t = k then p else f.transpositions t }

/-- The factorization `ldlt_inplace<Lower>::unblocked` run by `LDLT::compute` on a copy of
the matrix: nothing is done for a matrix of size at most 1; when the first pivot is zero
(the whole diagonal is zero) the function returns at once with the identity for the
transpositions; otherwise the passes `k = 0 .. size - 1` run. The return value and the
sign of the matrix, which `solve` does not consult, are left out. -/
def unblocked (a : MatrixXF K) : factors K :=
  let size := a.rows
  let start : factors K :=
    ⟨fun i j => if i < a.rows ∧ j < a.cols then a.coeff i j else 0, fun t => t⟩
  if size ≤ 1 then start
  else
    let f0 := unblocked_step size 0 start
    if 0 < |f0.matrix 0 0| then forLoop 1 size (unblocked_step size) f0
    else { f0 with transpositions := fun t => t }

/-- The exchange of the entries `k` and `p` of a vector. -/
def swap_rows (y : Nat → K) (k p : Nat) : Nat → K := fun i =>
  if i = k then y p else if i = p then y k else y i

/-- The function `LDLT::_solve_impl` behind `ldlt.solve(b)`: `dst = P b`, then
`matrixL().solveInPlace(dst)`, then the division by `D` with the entries of a zero pivot
set to zero (the pseudo-inverse of `D`; the tolerance, the smallest positive normal
number, is read as zero), then `matrixU().solveInPlace(dst)`, then `dst = P^T dst`. -/
def solve_impl (d : LDLT K) (b : VectorXF K) : VectorXF K :=
  let size := d.matrix.rows
  let f := unblocked d.matrix
  let dst : Nat → K := fun i => if i < size then b.coeff i else 0
  let dst := forLoop 0 size (fun k y => swap_rows y k (f.transpositions k)) dst
  let dst := forLoop 0 size
    (fun i y => Function.update y i (y i - ∑ j in Finset.range i, f.matrix i j * y j)) dst
  let dst := forLoop 0 size
    (fun i y => Function.update y i (if 0 < |f.matrix i i| then y i / f.matrix i i else 0)) dst
  let dst := forLoop 0 size
    (fun t y => Function.update y (size - 1 - t)
      (y (size - 1 - t) -
        ∑ j in Finset.Ico (size - t) size, f.matrix j (size - 1 - t) * y j)) dst
  let dst := forLoop 0 size
    (fun t y => swap_rows y (size - 1 - t) (f.transpositions (size - 1 - t))) dst
  ⟨d.matrix.cols, fun i => if i < size then dst i else 0⟩

end LDLT

end EigenLDLT

/-! ## The null-space reduction, entrywise -/

section Blocks

variable {K : Type} [Field K]

open Finset

/-- The lift `Q γ`: `(-E) γ` on the first `l` entries, `γ` on the rest. -/
def liftQ (l n : Nat) (E : Nat → Nat → K) (γ : Nat → K) (j : Nat) : K :=
  if j < l then ∑ k in range n, E j k * γ k else γ (j - l)

/-- The product `A Q`, columnwise: `A[:, :l] (-E) + A[:, l:]`. -/
def blockAQ (l : Nat) (A E : Nat → Nat → K) (i j : Nat) : K :=
  ∑ k in range l, A i k * E k j + A i (l + j)

/-- The product `Q^T (A Q)`: `(-E)^T (A Q)[:l, :] + (A Q)[l:, :]`. -/
def blockQtAQ (l : Nat) (A E : Nat → Nat → K) (i j : Nat) : K :=
  ∑ k in range l, E k i * blockAQ l A E k j + blockAQ l A E (l + i) j

/-- The product `Q^T d`: `(-E)^T d[:l] + d[l:]`. -/
def blockQtd (l : Nat) (E : Nat → Nat → K) (d : Nat → K) (i : Nat) : K :=
  ∑ k in range l, E k i * d k + d (l + i)

end Blocks

/-! ## Collaborators of the solver -/

/-- The kernel interface `rbf::rbf_base` the solver consumes: `evaluate(r)`,
`evaluate(p, q)` and `nugget()`. -/
structure rbf_base (K : Type) where
  evaluate : K → K
  evaluate2 : Vector3F K → Vector3F K → K
  nugget : K

/-- Modelled from the spec: the value of `polynomial::basis_base::dimension(degree)`, the
dimension of the space of polynomials of degree at most `degree` in three variables, `0`
when `degree < 0` (no polynomial term). -/
def dimension (degree : Int) : Nat :=
  if degree < 0 then 0 else ((degree + 1) * (degree + 2) * (degree + 3) / 6).toNat

/-- Modelled from the spec: the polynomial collaborators `polynomial::basis_base`,
`polynomial::monomial_basis` and `polynomial::lagrange_basis` (their headers are not part
of the sources): `dimension degree` is `basis_base::dimension(degree)`, the number of basis
functions; `monomial degree k p` is the `k`-th monomial of the basis of degree `degree` at
`p`; `lagrange degree pts k p` is the `k`-th function of the Lagrange basis built from the
reference points `pts`, at `p`. -/
structure polynomial_bases (K : Type) where
  dimension : Int → Nat
  monomial : Int → Nat → Vector3F K → K
  lagrange : Int → List (Vector3F K) → Nat → Vector3F K → K

section Bases

variable {K : Type} [Field K]

/-- Element access `v[i]` of a `std::vector` of points, for `i` below the size of `v`. The
source leaves a read past the end undefined; here it yields the origin, and
`setup_in_range` tells where such a read happens. -/
def pointAt (v : List (Vector3F K)) (i : Nat) : Vector3F K := v.getD i (0, 0, 0)

/-- Element access `v[i]` of a `std::vector<size_t>`, for `i` below the size of `v`. The
source leaves a read past the end undefined; here it yields 0, and `solve_checked` and
`setup_in_range` tell where such a read happens. -/
def indexAt (v : List Nat) (i : Nat) : Nat := v.getD i 0

/-- Modelled from the spec: `monomial_basis(degree).evaluate_points(points)`,
the matrix of basis-function values (basis functions by points). -/
def monomial_evaluate_points (B : polynomial_bases K) (degree : Int)
    (points : List (Vector3F K)) : MatrixXF K :=
  ⟨B.dimension degree, points.length, fun i j => B.monomial degree i (pointAt points j)⟩

/-- Modelled from the spec: `lagrange_basis(degree, pts).evaluate_points(points)`,
the matrix of basis-function values (basis functions by points). -/
def lagrange_evaluate_points (B : polynomial_bases K) (degree : Int)
    (pts points : List (Vector3F K)) : MatrixXF K :=
  ⟨B.dimension degree, points.length, fun i j => B.lagrange degree pts i (pointAt points j)⟩

/-- The reference points `pts` are unisolvent for the degree and `B.lagrange degree pts`
is their Lagrange basis: each of its functions is a combination of the monomials of that
degree, equal to 1 at one reference point and to 0 at the others. -/
def IsLagrangeBasis (B : polynomial_bases K) (degree : Int) (pts : List (Vector3F K)) : Prop :=
  (∃ C : Nat → Nat → K, ∀ i < B.dimension degree, ∀ x, B.lagrange degree pts i x =
    ∑ k in Finset.range (B.dimension degree), C i k * B.monomial degree k x) ∧
  (∀ i < B.dimension degree, ∀ j < B.dimension degree,
    B.lagrange degree pts i (pointAt pts j) = if i = j then 1 else 0)

/-- The kernel matrix over the points in their original order, with
`evaluate(0) + nugget` on the diagonal. -/
def kernelMatrix (rbf : rbf_base K) (points : List (Vector3F K)) (a b : Nat) : K :=
  if a = b then rbf.evaluate 0 + rbf.nugget
  else rbf.evaluate2 (pointAt points a) (pointAt points b)

/-- The monomial matrix over the points in their original order (points by monomials). -/
def monomialMatrix (B : polynomial_bases K) (degree : Int) (points : List (Vector3F K))
    (a k : Nat) : K :=
  B.monomial degree k (pointAt points a)

end Bases

/-! ## The solver -/

/-- The class `rbf_direct_solver<Floating>`. -/
structure rbf_direct_solver (K : Type) where
  rbf : rbf_base K
  poly_degree : Int
  point_idcs : List Nat
  poly_points : List (Vector3F K)
  a_top : MatrixXF K
  ldlt_of_qtaq : LDLT K
  lu_of_a : PartialPivLU K
  me : MatrixXF K
  l : Nat
  m : Nat

namespace rbf_direct_solver

variable {K : Type} [Field K]

/-- The member initialisers of both constructors: the configuration fields are
set, every other member is default-constructed. -/
def init (B : polynomial_bases K) (rbf : rbf_base K) (poly_degree : Int) (n_points : Nat) :
    rbf_direct_solver K where
  rbf := rbf
  poly_degree := poly_degree
  point_idcs := []
  poly_points := []
  a_top := MatrixXF.empty
  ldlt_of_qtaq := LDLT.empty
  lu_of_a := PartialPivLU.empty
  me := MatrixXF.empty
  l := B.dimension poly_degree
  m := n_points

/-- The method `clear()`. -/
def clear (s : rbf_direct_solver K) : rbf_direct_solver K :=
  { s with
    a_top := MatrixXF.empty
    ldlt_of_qtaq := LDLT.empty
    lu_of_a := PartialPivLU.empty
    me := MatrixXF.empty }

/-- The `i`-th point in the internal (permuted) order, `points[point_idcs[i]]`. -/
def refPoint (points : List (Vector3F K)) (point_idcs : List Nat) (i : Nat) : Vector3F K :=
  pointAt points (indexAt point_idcs i)

/-- The part "Compute A" of `setup`: the matrix `a`, together with the list of
index pairs `(i, j)` at which `rbf.evaluate(points[point_idcs[i]],
points[point_idcs[j]])` was called, in call order. -/
def computeA (rbf : rbf_base K) (points : List (Vector3F K)) (point_idcs : List Nat)
    (m : Nat) : MatrixXF K × List (Nat × Nat) :=
  let a0 : MatrixXF K := MatrixXF.alloc m m
  let diagonal := rbf.evaluate 0 + rbf.nugget
  let a1 := forLoop 0 m (fun i a => a.set i i diagonal) a0
  forLoop 0 (size_t_sub m 1) (fun i st =>
    forLoop (i + 1) m (fun j st =>
      let a := st.1.set i j
        (rbf.evaluate2 (pointAt points (indexAt point_idcs i))
          (pointAt points (indexAt point_idcs j)))
      (a.set j i (a.coeff i j), st.2 ++ [(i, j)])) st) (a1, [])

/-- The method `setup(points)`. The argument `shuffled` is the content of
`point_idcs` after `std::shuffle` (any rearrangement of `0, 1, ..., m - 1`). -/
def setup (B : polynomial_bases K) (s : rbf_direct_solver K) (points : List (Vector3F K))
    (shuffled : List Nat) : rbf_direct_solver K :=
  let l := s.l
  let m := s.m
  let iota := List.range m
  if 0 ≤ s.poly_degree then
    let point_idcs := shuffled
    let poly_points := forLoop 0 l
      (fun i pp => pp ++ [pointAt points (indexAt point_idcs i)]) s.poly_points
    let other_points := forLoop l m
      (fun i op => op ++ [pointAt points (indexAt point_idcs i)]) []
    let me := (lagrange_evaluate_points B s.poly_degree poly_points other_points).neg
    let a := (computeA s.rbf points point_idcs m).1
    let aq := ((a.leftCols l).mul me).add (a.rightCols (size_t_sub m l))
    let qtaq := (me.transpose.mul (aq.topRows l)).add (aq.bottomRows (size_t_sub m l))
    { s with
      point_idcs := point_idcs
      poly_points := poly_points
      me := me
      ldlt_of_qtaq := qtaq.ldlt
      a_top := a.topRows l }
  else
    let point_idcs := iota
    let a := (computeA s.rbf points point_idcs m).1
    { s with
      point_idcs := point_idcs
      lu_of_a := a.partialPivLu }

/-- The first loop of `solve`: the values in the internal (permuted) order. -/
def permute_values (s : rbf_direct_solver K) (values : VectorXF K) : VectorXF K :=
  forLoop 0 s.m
    (fun i v => v.set i (values.coeff (indexAt s.point_idcs i))) (VectorXF.alloc values.size)

/-- The part "Compute Q^T d" of `solve`. -/
def compute_qtd (s : rbf_direct_solver K) (values_permuted : VectorXF K) : VectorXF K :=
  let l := s.l
  let m := s.m
  if 0 ≤ s.poly_degree then
    (s.me.transpose.mulVec (values_permuted.head l)).add
      (values_permuted.tail (size_t_sub m l))
  else values_permuted

/-- The part "Compute lambda = Q gamma" of `solve`: the vector `lambda_c` with its first
`m` entries filled in from `gamma`. -/
def lift_gamma (s : rbf_direct_solver K) (gamma : VectorXF K) : VectorXF K :=
  let l := s.l
  let m := s.m
  let lambda_c : VectorXF K := VectorXF.alloc (m + l)
  let lambda_c := lambda_c.setHead l (s.me.mulVec gamma)
  lambda_c.setSegment l (size_t_sub m l) gamma

/-- The part "Solve (Q^T A Q) gamma = Q^T d" and "Compute lambda = Q gamma" of `solve`. -/
def compute_lambda (s : rbf_direct_solver K) (values_permuted : VectorXF K) : VectorXF K :=
  let qtd := compute_qtd s values_permuted
  let gamma := s.ldlt_of_qtaq.solve qtd
  lift_gamma s gamma

/-- The residual `d - A lambda` at the polynomial reference points
(`res_at_poly_points` in `solve`). -/
def compute_residual (s : rbf_direct_solver K) (values_permuted lambda_c : VectorXF K) :
    VectorXF K :=
  let l := s.l
  let m := s.m
  let d_at_poly_points := forLoop 0 l
    (fun i v => v.set i (values_permuted.coeff i)) (VectorXF.alloc l)
  let phi_at_poly_points := forLoop 0 l
    (fun i v => forLoop 0 m
      (fun j v => v.set i (v.coeff i + lambda_c.coeff j * s.a_top.coeff i j)) v)
    (VectorXF.zero l)
  d_at_poly_points.sub phi_at_poly_points

/-- The part "Solve P c = d - A lambda for c at poly_points" of `solve`: the polynomial
coefficients. -/
def poly_coefficients (B : polynomial_bases K) (s : rbf_direct_solver K)
    (values_permuted lambda_c : VectorXF K) : VectorXF K :=
  let pt := monomial_evaluate_points B s.poly_degree s.poly_points
  let res_at_poly_points := compute_residual s values_permuted lambda_c
  pt.transpose.fullPivLu_solve res_at_poly_points

/-- The middle part of `solve`: the vector `lambda_c` before it is un-permuted. -/
def compute_lambda_c (B : polynomial_bases K) (s : rbf_direct_solver K)
    (values_permuted : VectorXF K) : VectorXF K :=
  if 0 ≤ s.poly_degree then
    let lambda_c := compute_lambda s values_permuted
    lambda_c.setTail s.l (poly_coefficients B s values_permuted lambda_c)
  else s.lu_of_a.solve (compute_qtd s values_permuted)

/-- The last loop of `solve`: the first `m` entries of `lambda_c` are written back at
the original point indices. -/
def unpermute (s : rbf_direct_solver K) (lambda_c : VectorXF K) : VectorXF K :=
  let lambda_permuted := lambda_c.head s.m
  forLoop 0 s.m
    (fun i v => v.set (indexAt s.point_idcs i) (lambda_permuted.coeff i)) lambda_c

/-- The arithmetic of the method `solve(values)`; `none` when `assert(values.size() == m)`
fails. On a solver that has been set up, every operation is within its bounds and this is
what the method computes with exact decompositions; `solve_checked` is the method with the
bounds, the assertions of Eigen and Eigen's LDLT algorithm. -/
def solve (B : polynomial_bases K) (s : rbf_direct_solver K) (values : VectorXF K) :
    Option (VectorXF K) :=
  if values.size ≠ s.m then none
  else some (unpermute s (compute_lambda_c B s (permute_values s values)))

/-- A solver as the constructors leave it before `setup` runs: `l` is the dimension for
`poly_degree`, `m > l`, and no reference point is stored yet. -/
def Constructed (B : polynomial_bases K) (s : rbf_direct_solver K) : Prop :=
  s.l = B.dimension s.poly_degree ∧ s.l < s.m ∧ s.poly_points = []

/-- The constructor taking the number of points; `none` when `assert(m > l)` fails. -/
def mk_n_points (B : polynomial_bases K) (rbf : rbf_base K) (poly_degree : Int)
    (n_points : Nat) : Option (rbf_direct_solver K) :=
  let s := init B rbf poly_degree n_points
  if s.m > s.l then some s else none

/-- The constructor taking the point set; `none` when `assert(m > l)` fails. -/
def mk_points (B : polynomial_bases K) (rbf : rbf_base K) (poly_degree : Int)
    (points : List (Vector3F K)) (shuffled : List Nat) : Option (rbf_direct_solver K) :=
  let s := init B rbf poly_degree points.length
  if s.m > s.l then some (setup B s points shuffled) else none

/-- The part "Compute A Q" of `setup`, for the matrices `a` and `me` it has built. -/
def compute_aq (a me : MatrixXF K) (l m : Nat) : MatrixXF K :=
  ((a.leftCols l).mul me).add (a.rightCols (size_t_sub m l))

/-- The part "Compute Q^T (A Q)" of `setup`, for the matrices `a` and `me` it has built. -/
def compute_qtaq (a me : MatrixXF K) (l m : Nat) : MatrixXF K :=
  let aq := compute_aq a me l m
  (me.transpose.mul (aq.topRows l)).add (aq.bottomRows (size_t_sub m l))

/-- The `m`-by-`(m - l)` matrix `Q = [(-E) ; I]`: the rows of `-E` on top of the identity
matrix. -/
def fullQ (me : MatrixXF K) (l m : Nat) : MatrixXF K :=
  ⟨m, m - l, fun i j => if i < l then me.coeff i j else if i = l + j then 1 else 0⟩

/-- The full product `Q^T A Q`. -/
def full_qtaq (a me : MatrixXF K) (l m : Nat) : MatrixXF K :=
  ((fullQ me l m).transpose.mul a).mul (fullQ me l m)

/-- Every index and every block size that `setup(points)` uses is in range: the entries
of `point_idcs`, the reads `point_idcs[i]` and `points[point_idcs[i]]`, the loop bound
`m - 1`, the entries `a(i, j)`, and the blocks `leftCols(l)`, `rightCols(m - l)`,
`topRows(l)` and `bottomRows(m - l)` of `a` and `aq`. -/
def setup_in_range (B : polynomial_bases K) (s : rbf_direct_solver K)
    (points : List (Vector3F K)) (shuffled : List Nat) : Prop :=
  let l := s.l
  let m := s.m
  let point_idcs := (setup B s points shuffled).point_idcs
  let me := (setup B s points shuffled).me
  let a := (computeA s.rbf points point_idcs m).1
  let aq := compute_aq a me l m
  -- `point_idcs.resize(m)`, `std::iota`, `std::shuffle`
  point_idcs.length = m ∧ (∀ i < m, indexAt point_idcs i < m) ∧
  -- `points[point_idcs[i]]` for `i < l`, for `l <= i < m`, and in "Compute A"
  (∀ i < m, i < point_idcs.length ∧ indexAt point_idcs i < points.length) ∧
  -- `i < m - 1` and `m - l` do not wrap around
  size_t_sub m 1 + 1 = m ∧ size_t_sub m l + l = m ∧
  -- `a(i, i)`, `a(i, j)` and `a(j, i)` for `i < m - 1`, `i + 1 <= j < m`
  (∀ i < m, i < a.rows ∧ i < a.cols) ∧
  (∀ i < size_t_sub m 1, ∀ j, i + 1 ≤ j → j < m →
    i < a.rows ∧ j < a.cols ∧ j < a.rows ∧ i < a.cols) ∧
  (0 ≤ s.poly_degree →
    -- `a.leftCols(l)`, `a.rightCols(m - l)`, `a.topRows(l)`
    l ≤ a.cols ∧ size_t_sub m l ≤ a.cols ∧ l ≤ a.rows ∧
    -- `aq.topRows(l)`, `aq.bottomRows(m - l)`
    l ≤ aq.rows ∧ size_t_sub m l ≤ aq.rows)

/-- Every index and every block size that `solve(values)` uses is in range: the reads
`values(point_idcs[i])`, the blocks `head(l)` and `tail(m - l)` of `values_permuted`, the
blocks `head(l)`, `segment(l, m - l)`, `tail(l)` and `head(m)` of `lambda_c`, the entries
`lambda_c(j)`, `a_top(i, j)`, and the writes `lambda_c(point_idcs[i])`. -/
def solve_in_range (B : polynomial_bases K) (s : rbf_direct_solver K)
    (values : VectorXF K) : Prop :=
  let l := s.l
  let m := s.m
  let values_permuted := permute_values s values
  let lambda_c := compute_lambda_c B s values_permuted
  -- `values_permuted(i) = values(point_idcs[i])` for `i < m`
  (∀ i < m, i < values_permuted.size ∧ i < s.point_idcs.length ∧
    indexAt s.point_idcs i < values.size) ∧
  (0 ≤ s.poly_degree →
    -- `values_permuted.head(l)`, `values_permuted.tail(m - l)`
    l ≤ values_permuted.size ∧ size_t_sub m l ≤ values_permuted.size ∧
    -- `lambda_c.head(l)`, `lambda_c.segment(l, m - l)`, `lambda_c.tail(l)`
    l ≤ (compute_lambda s values_permuted).size ∧
    l + size_t_sub m l ≤ (compute_lambda s values_permuted).size ∧
    l ≤ (compute_lambda s values_permuted).size ∧
    -- `d_at_poly_points(i) = values_permuted(i)` for `i < l`
    (∀ i < l, i < values_permuted.size) ∧
    -- `lambda_c(j) * a_top(i, j)` for `i < l`, `j < m`
    (∀ i < l, ∀ j < m, j < (compute_lambda s values_permuted).size ∧
      i < s.a_top.rows ∧ j < s.a_top.cols) ∧
    -- the result has `m + l` entries
    lambda_c.size = m + l) ∧
  -- `lambda_c.head(m)` and `lambda_c(point_idcs[i]) = lambda_permuted(i)` for `i < m`:
  -- the writes stay inside the first `m` entries
  m ≤ lambda_c.size ∧
  (∀ i < m, i < s.point_idcs.length ∧ indexAt s.point_idcs i < m)

/-- The kernel evaluations made by the constructor taking the point set, in call order:
none when `assert(m > l)` fails, those of `setup` otherwise. -/
def mk_points_kernel_calls (B : polynomial_bases K) (rbf : rbf_base K) (poly_degree : Int)
    (points : List (Vector3F K)) (shuffled : List Nat) : List (Nat × Nat) :=
  let s := init B rbf poly_degree points.length
  if s.m > s.l then
    (computeA s.rbf points (if 0 ≤ s.poly_degree then shuffled else List.range s.m) s.m).2
  else []

/-- The kernel value between the permuted points `i` and `j`. -/
def kernelAt (rbf : rbf_base K) (points : List (Vector3F K)) (point_idcs : List Nat)
    (i j : Nat) : K :=
  rbf.evaluate2 (pointAt points (indexAt point_idcs i)) (pointAt points (indexAt point_idcs j))

/-- The state of "Compute A" when the pairs `(r, c)` with `r < i`, and those with `r = i`
and `c < j`, have been handled. -/
def ComputeAInv (rbf : rbf_base K) (points : List (Vector3F K)) (point_idcs : List Nat)
    (m i j : Nat) (st : MatrixXF K × List (Nat × Nat)) : Prop :=
  st.1.rows = m ∧ st.1.cols = m ∧
  (∀ r < m, st.1.coeff r r = rbf.evaluate 0 + rbf.nugget) ∧
  (∀ r c, r < c → c < m → (r < i ∨ (r = i ∧ c < j)) →
    st.1.coeff r c = kernelAt rbf points point_idcs r c ∧
    st.1.coeff c r = kernelAt rbf points point_idcs r c) ∧
  st.2.Nodup ∧
  (∀ p : Nat × Nat, p ∈ st.2 ↔ (p.1 < p.2 ∧ p.2 < m ∧ (p.1 < i ∨ (p.1 = i ∧ p.2 < j))))

end rbf_direct_solver

/-! ## The method `solve` with its preconditions -/

namespace rbf_direct_solver

section Assemble

variable {K : Type} [Field K]

/-- The lines 165 to 186 of `solve` for a given `gamma`: the vector `lambda_c` with the
weights `Q gamma` in its first `m` entries and the polynomial coefficients in its last
`l` entries. -/
def assemble_lambda_c (B : polynomial_bases K) (s : rbf_direct_solver K)
    (values_permuted gamma : VectorXF K) : VectorXF K :=
  let lambda_c := lift_gamma s gamma
  lambda_c.setTail s.l (poly_coefficients B s values_permuted lambda_c)

/-- Where a call of `solve` ends without a result. -/
inductive solve_failure where
  /-- The assertion `values.size() == m` at the entry of `solve` (line 143). -/
  | length_assertion
  /-- The read `point_idcs[i]` or `values(point_idcs[i])` in the permutation loop (line 147)
  is outside the vector: undefined behaviour for the `std::vector`, an assertion of Eigen
  for `values`. -/
  | read_out_of_range
  /-- An assertion of Eigen in the linear algebra (lines 150 to 193): the sizes of a product,
  a sum, a block or an assignment do not agree, or a decomposition is not initialised. -/
  | eigen_assertion

/-- The reads of the permutation loop of `solve` (lines 146 to 148) are in range. -/
def permute_reads_in_range (s : rbf_direct_solver K) (values : VectorXF K) : Prop :=
  ∀ i < s.m, i < s.point_idcs.length ∧ indexAt s.point_idcs i < values.size

instance (s : rbf_direct_solver K) (values : VectorXF K) :
    Decidable (permute_reads_in_range s values) := by
  unfold permute_reads_in_range
  infer_instance

/-- What Eigen asserts in the branch `poly_degree >= 0` of `solve`, for a vector
`values_permuted` of length `m`. -/
def nullspace_asserts (B : polynomial_bases K) (s : rbf_direct_solver K) : Prop :=
  -- `me.transpose() * values_permuted.head(l)` (line 153)
  s.l ≤ s.m ∧ s.me.rows = s.l ∧
  -- `qtd += values_permuted.tail(m - l)` (line 154)
  size_t_sub s.m s.l ≤ s.m ∧ s.me.cols = size_t_sub s.m s.l ∧
  -- `ldlt_of_qtaq.solve(qtd)` (line 162)
  s.ldlt_of_qtaq.isInitialized = true ∧ s.ldlt_of_qtaq.matrix.rows = s.me.cols ∧
  -- `lambda_c.head(l) = me * gamma` (line 166)
  s.me.cols = s.ldlt_of_qtaq.matrix.cols ∧
  -- `lambda_c.segment(l, m - l) = gamma` (line 167)
  s.l + size_t_sub s.m s.l ≤ s.m + s.l ∧ s.ldlt_of_qtaq.matrix.cols = size_t_sub s.m s.l ∧
  -- `lambda_c(j) * a_top(i, j)` (line 179)
  (∀ i < s.l, ∀ j < s.m, i < s.a_top.rows ∧ j < s.a_top.cols) ∧
  -- `lambda_c.tail(l) = pt.transpose().fullPivLu().solve(res_at_poly_points)` (line 186)
  s.poly_points.length = s.l ∧ B.dimension s.poly_degree = s.l

instance (B : polynomial_bases K) (s : rbf_direct_solver K) :
    Decidable (nullspace_asserts B s) := by
  unfold nullspace_asserts
  infer_instance

/-- What Eigen asserts in the branch `poly_degree < 0` of `solve`, for a vector
`values_permuted` of length `m`. -/
def lu_asserts (s : rbf_direct_solver K) : Prop :=
  -- `lu_of_a.solve(qtd)` (line 188)
  s.lu_of_a.isInitialized = true ∧ s.lu_of_a.matrix.rows = s.m ∧
  -- `lambda_c.head(m)` and `lambda_c(point_idcs[i])` (lines 191 to 193)
  s.m ≤ s.lu_of_a.matrix.cols

instance (s : rbf_direct_solver K) : Decidable (lu_asserts s) := by
  unfold lu_asserts
  infer_instance

end Assemble

section Checked

variable {K : Type} [LinearOrderedField K]

/-- The middle part of `solve` (lines 150 to 189) with Eigen's LDLT algorithm: the vector
`lambda_c` before it is un-permuted. -/
def compute_lambda_c_eigen (B : polynomial_bases K) (s : rbf_direct_solver K)
    (values_permuted : VectorXF K) : VectorXF K :=
  let qtd := compute_qtd s values_permuted
  if 0 ≤ s.poly_degree then
    let gamma := s.ldlt_of_qtaq.solve_impl qtd
    let lambda_c := lift_gamma s gamma
    lambda_c.setTail s.l (poly_coefficients B s values_permuted lambda_c)
  else s.lu_of_a.solve qtd

/-- The method `solve(values)` as the library runs it: the assertion at the entry, the
permutation loop with its reads, the linear algebra with the assertions of Eigen and
Eigen's LDLT algorithm, the un-permutation. The result is the returned vector, or the
place where the call ended without one. -/
def solve_checked (B : polynomial_bases K) (s : rbf_direct_solver K) (values : VectorXF K) :
    Except solve_failure (VectorXF K) :=
  if values.size ≠ s.m then Except.error solve_failure.length_assertion
  else if ¬ permute_reads_in_range s values then Except.error solve_failure.read_out_of_range
  else if ¬ (if 0 ≤ s.poly_degree then nullspace_asserts B s else lu_asserts s) then
    Except.error solve_failure.eigen_assertion
  else Except.ok (unpermute s (compute_lambda_c_eigen B s (permute_values s values)))

/-- Eigen's LDLT decomposition solves the reduced system of `solve` for the value vector
`values`: the vector `gamma` it returns satisfies `(Q^T A Q) gamma = Q^T d`. -/
def LdltSolves (s : rbf_direct_solver K) (values : VectorXF K) : Prop :=
  ∀ i < s.ldlt_of_qtaq.matrix.rows,
    ∑ t in Finset.range s.ldlt_of_qtaq.matrix.cols, s.ldlt_of_qtaq.matrix.coeff i t *
      (s.ldlt_of_qtaq.solve_impl (compute_qtd s (permute_values s values))).coeff t =
    (compute_qtd s (permute_values s values)).coeff i

/-- The call is refused at the entry of `solve`, before the permutation loop and before any
linear algebra. The source has one check there, the assertion of line 143. -/
def RefusedAtEntry (r : Except solve_failure (VectorXF K)) : Prop :=
  r = Except.error solve_failure.length_assertion

end Checked

end rbf_direct_solver

/-! ## A small concrete instance -/

namespace example2

/-- The bases of degree 0: the constant monomial, which is also the Lagrange function of a
single reference point. -/
def bases : polynomial_bases ℚ := ⟨dimension, fun _ _ _ => 1, fun _ _ _ _ => 1⟩

/-- The squared Euclidean distance of two points. -/
def dist2 (p q : Vector3F ℚ) : ℚ :=
  (p.1 - q.1) ^ 2 + (p.2.1 - q.2.1) ^ 2 + (p.2.2 - q.2.2) ^ 2

/-- A radial kernel with rational values: `1 / (1 + r^2)`, without nugget. -/
def kernel : rbf_base ℚ := ⟨fun r => 1 / (1 + r ^ 2), fun p q => 1 / (1 + dist2 p q), 0⟩

/-- Two points on the x axis. -/
def points : List (Vector3F ℚ) := [(0, 0, 0), (1, 0, 0)]

/-- The values at the two points. -/
def values : VectorXF ℚ := ⟨2, fun i => if i = 1 then 1 else 0⟩

/-- Values sampled from the constant polynomial `5`. -/
def constant_values : VectorXF ℚ := ⟨2, fun _ => 5⟩

/-- The solver for two points and a constant polynomial term, before `setup`. -/
def solver : rbf_direct_solver ℚ := rbf_direct_solver.init bases kernel 0 2

end example2

/-! ## The five-point scenario -/

namespace example5

/-- The corners and the centre of the unit square, lifted into 3D (`z = 0`). -/
def points : List (Vector3F ℚ) :=
  [(0, 0, 0), (1, 0, 0), (0, 1, 0), (1, 1, 0), (1 / 2, 1 / 2, 0)]

/-- The values `[0, 0, 0, 0, 1]`: the centre is the high point. -/
def values : VectorXF ℚ := ⟨5, fun i => if i = 4 then 1 else 0⟩

/-- The solver for five points and a constant polynomial term, before `setup`. -/
def solver : rbf_direct_solver ℚ :=
  rbf_direct_solver.init example2.bases example2.kernel 0 5

end example5

/-! ## A kernel that vanishes at distance 0 and 1 -/

namespace example3

/-- The radial kernel `r^2 (r^2 - 1)`, without nugget: it is zero at the distances 0 and 1
and 12 at the distance 2. -/
def kernel : rbf_base ℚ :=
  ⟨fun r => r ^ 2 * (r ^ 2 - 1), fun p q => example2.dist2 p q * (example2.dist2 p q - 1), 0⟩

/-- Three points on the x axis: 0, 1 and -1. -/
def points : List (Vector3F ℚ) := [(0, 0, 0), (1, 0, 0), (-1, 0, 0)]

/-- The values `[0, 1, 0]`. -/
def values : VectorXF ℚ := ⟨3, fun i => if i = 1 then 1 else 0⟩

/-- The solver for three points and a constant polynomial term, before `setup`. -/
def solver : rbf_direct_solver ℚ := rbf_direct_solver.init example2.bases kernel 0 3

end example3

/-! ## Two points without polynomial term -/

namespace example2

end example2

end polatory

/-! # Theorems -/

namespace polatory

/-! ## Loop rules -/


section LoopLemmas
variable {σ : Type}

theorem forLoop_of_ge (lo hi : Nat) (body : Nat → σ → σ) (init : σ) (h : hi ≤ lo) :
    forLoop lo hi body init = init := by
  simp [forLoop, Nat.sub_eq_zero_of_le h]

theorem forLoop_succ (lo hi : Nat) (body : Nat → σ → σ) (init : σ) (h : lo ≤ hi) :
    forLoop lo (hi + 1) body init = body hi (forLoop lo hi body init) := by
  unfold forLoop
  have e : hi + 1 - lo = (hi - lo) + 1 := by omega
  rw [e, List.range'_1_concat, List.foldl_append]
  simp
  congr 1
  omega

/-- Invariant rule for `forLoop`. -/
theorem forLoop_invariant (P : Nat → σ → Prop) (lo hi : Nat) (body : Nat → σ → σ) (init : σ)
    (hle : lo ≤ hi) (h0 : P lo init)
    (hstep : ∀ i st, lo ≤ i → i < hi → P i st → P (i + 1) (body i st)) :
    P hi (forLoop lo hi body init) := by
  induction hi with
  | zero =>
    have : lo = 0 := by omega
    subst this
    simpa [forLoop] using h0
  | succ k ih =>
    rcases Nat.eq_or_lt_of_le hle with h | h
    · subst h
      rw [forLoop_of_ge _ _ _ _ (le_refl _)]
      exact h0
    · have hk : lo ≤ k := by omega
      rw [forLoop_succ _ _ _ _ hk]
      exact hstep k _ hk (by omega) (ih hk (fun i st h1 h2 => hstep i st h1 (by omega)))

end LoopLemmas

section VecLoops
variable {K : Type}

@[simp] theorem VectorXF.set_size (v : VectorXF K) (i : Nat) (x : K) : (v.set i x).size = v.size := rfl

/-- A loop writing `f i` at position `i`, for `i < n`. -/
theorem forLoop_set_coeff (n : Nat) (f : Nat → K) (v0 : VectorXF K) (k : Nat) :
    (forLoop 0 n (fun i v => v.set i (f i)) v0).coeff k = if k < n then f k else v0.coeff k := by
  refine forLoop_invariant (fun n v => v.coeff k = if k < n then f k else v0.coeff k) 0 n _ v0
    (Nat.zero_le _) (by simp) ?_
  intro i st _ _ h
  simp only [VectorXF.set]
  by_cases hk : k = i
  · subst hk; simp
  · simp only [hk, if_false, h]
    by_cases h1 : k < i
    · simp [h1, Nat.lt_succ_of_lt h1]
    · have : ¬ k < i + 1 := by omega
      simp [h1, this]

theorem forLoop_set_size (n : Nat) (g : Nat → Nat) (f : Nat → VectorXF K → K) (v0 : VectorXF K) :
    (forLoop 0 n (fun i v => v.set (g i) (f i v)) v0).size = v0.size := by
  refine forLoop_invariant (fun _ v => v.size = v0.size) 0 n _ v0 (Nat.zero_le _) rfl ?_
  intro i st _ _ h
  simpa using h

/-- A scatter loop writing `w i` at position `g i`, for `i < n`, when `g` is injective
below `n`. -/
theorem forLoop_scatter_coeff (n : Nat) (g : Nat → Nat) (w : Nat → K) (v0 : VectorXF K)
    (hg : ∀ i < n, ∀ j < n, g i = g j → i = j) :
    (∀ i < n, (forLoop 0 n (fun i v => v.set (g i) (w i)) v0).coeff (g i) = w i) ∧
    (∀ k, (∀ i < n, g i ≠ k) → (forLoop 0 n (fun i v => v.set (g i) (w i)) v0).coeff k = v0.coeff k) := by
  refine forLoop_invariant (fun t v => t ≤ n → ((∀ i < t, v.coeff (g i) = w i) ∧
      (∀ k, (∀ i < t, g i ≠ k) → v.coeff k = v0.coeff k))) 0 n _ v0 (Nat.zero_le _) ?_ ?_ (le_refl _)
  · intro _; simp
  · intro t st _ ht ih _
    obtain ⟨ih1, ih2⟩ := ih (by omega)
    constructor
    · intro i hi
      simp only [VectorXF.set]
      by_cases h : i = t
      · subst h; simp
      · have h2 : g i ≠ g t := fun e => h (hg i (by omega) t ht e)
        simp only [h2, if_false]
        exact ih1 i (by omega)
    · intro k hk
      simp only [VectorXF.set]
      have h1 : k ≠ g t := fun h => hk t (by omega) h.symm
      simp only [h1, if_false]
      exact ih2 k (fun i hi => hk i (by omega))

end VecLoops

namespace rbf_direct_solver
section ComputeA
variable {K : Type} [Field K]

theorem computeA_diag_loop (m : Nat) (d : K) :
    (forLoop 0 m (fun i a => a.set i i d) (MatrixXF.alloc m m : MatrixXF K)).rows = m ∧
    (forLoop 0 m (fun i a => a.set i i d) (MatrixXF.alloc m m : MatrixXF K)).cols = m ∧
    ∀ r < m, (forLoop 0 m (fun i a => a.set i i d) (MatrixXF.alloc m m : MatrixXF K)).coeff r r = d := by
  refine forLoop_invariant (fun t (a : MatrixXF K) => a.rows = m ∧ a.cols = m ∧
    ∀ r < t, a.coeff r r = d) 0 m _ _ (Nat.zero_le _) ⟨rfl, rfl, by simp⟩ ?_
  rintro i st - - ⟨h1, h2, h3⟩
  refine ⟨h1, h2, ?_⟩
  intro r hr
  simp only [MatrixXF.set]
  by_cases h : r = i
  · simp [h]
  · simp only [h, and_self, if_false]
    exact h3 r (by omega)

theorem computeA_inner (rbf : rbf_base K) (points : List (Vector3F K)) (point_idcs : List Nat)
    (m i : Nat) (st : MatrixXF K × List (Nat × Nat)) (hi : i < m)
    (h : ComputeAInv rbf points point_idcs m i (i + 1) st) :
    ComputeAInv rbf points point_idcs m i m
      (forLoop (i + 1) m (fun j st =>
        let a := st.1.set i j
          (rbf.evaluate2 (pointAt points (indexAt point_idcs i))
            (pointAt points (indexAt point_idcs j)))
        (a.set j i (a.coeff i j), st.2 ++ [(i, j)])) st) := by
  refine forLoop_invariant (fun j st => ComputeAInv rbf points point_idcs m i j st)
    (i + 1) m _ st (by omega) h ?_
  rintro j ⟨a, log⟩ hij hjm ⟨h1, h2, h3, h4, h5, h6⟩
  refine ⟨h1, h2, ?_, ?_, ?_, ?_⟩
  · intro r hr
    have e1 : ¬ (r = j ∧ r = i) := by omega
    have e2 : ¬ (r = i ∧ r = j) := by omega
    simp only [MatrixXF.set, e1, e2, if_false]
    exact h3 r hr
  · intro r c hrc hc hp
    by_cases hnew : r = i ∧ c = j
    · obtain ⟨rfl, rfl⟩ := hnew
      have e1 : ¬ (r = c ∧ c = r) := by omega
      simp [MatrixXF.set, kernelAt, e1]
    · have e1 : ¬ (r = j ∧ c = i) := by omega
      have e2 : ¬ (c = j ∧ r = i) := by omega
      have e3 : ¬ (c = i ∧ r = j) := by omega
      simp only [MatrixXF.set, e1, e2, e3, hnew, if_false]
      exact h4 r c hrc hc (by omega)
  · simp only
    rw [List.nodup_append]
    refine ⟨h5, List.nodup_singleton _, ?_⟩
    intro p hp hp2
    rw [List.mem_singleton] at hp2
    subst hp2
    have := (h6 (i, j)).1 hp
    simp at this
  · intro p
    simp only [List.mem_append, List.mem_singleton, h6 p]
    constructor
    · rintro (⟨a1, a2, a3⟩ | rfl)
      · exact ⟨a1, a2, by omega⟩
      · simp; omega
    · rintro ⟨a1, a2, a3⟩
      by_cases e : p.2 = j
      · by_cases e2 : p.1 = i
        · right; exact Prod.ext e2 e
        · left; exact ⟨a1, a2, by omega⟩
      · left; exact ⟨a1, a2, by omega⟩

theorem computeA_inv (rbf : rbf_base K) (points : List (Vector3F K)) (point_idcs : List Nat)
    (m : Nat) (hm : 0 < m) :
    ComputeAInv rbf points point_idcs m (m - 1) (m - 1 + 1)
      (computeA rbf points point_idcs m) := by
  unfold computeA
  have hs : size_t_sub m 1 = m - 1 := by simp [size_t_sub]; omega
  simp only [hs]
  obtain ⟨d1, d2, d3⟩ := computeA_diag_loop (K := K) m (rbf.evaluate 0 + rbf.nugget)
  refine forLoop_invariant (fun i st => ComputeAInv rbf points point_idcs m i (i + 1) st)
    0 (m - 1) _ _ (Nat.zero_le _) ?_ ?_
  · refine ⟨d1, d2, d3, ?_, List.nodup_nil, ?_⟩
    · intro r c hrc hc hp; omega
    · intro p; simp; omega
  · intro i st _ hi h
    obtain ⟨h1, h2, h3, h4, h5, h6⟩ :=
      computeA_inner rbf points point_idcs m i st (by omega) h
    refine ⟨h1, h2, h3, ?_, h5, ?_⟩
    · intro r c hrc hc hp
      exact h4 r c hrc hc (by omega)
    · intro p
      rw [h6 p]
      constructor
      · rintro ⟨a1, a2, a3⟩; exact ⟨a1, a2, by omega⟩
      · rintro ⟨a1, a2, a3⟩; exact ⟨a1, a2, by omega⟩

end ComputeA
end rbf_direct_solver

/-! ## Algebra of the null-space reduction -/

section Core
variable {K : Type} [Field K]
open Finset

theorem sum_mul_liftQ (l n : Nat) (E : Nat → Nat → K) (γ : Nat → K) (a : Nat → K) :
    ∑ j in range (l + n), a j * liftQ l n E γ j =
      ∑ t in range n, (∑ k in range l, a k * E k t + a (l + t)) * γ t := by
  rw [sum_range_add]
  have h1 : ∑ j in range l, a j * liftQ l n E γ j =
      ∑ t in range n, (∑ k in range l, a k * E k t) * γ t := by
    calc ∑ j in range l, a j * liftQ l n E γ j
        = ∑ j in range l, ∑ t in range n, a j * E j t * γ t := by
          refine sum_congr rfl fun j hj => ?_
          rw [liftQ, if_pos (mem_range.1 hj), mul_sum]
          exact sum_congr rfl fun t _ => (mul_assoc _ _ _).symm
      _ = ∑ t in range n, ∑ j in range l, a j * E j t * γ t := sum_comm
      _ = ∑ t in range n, (∑ k in range l, a k * E k t) * γ t :=
          sum_congr rfl fun t _ => (sum_mul _ _ _).symm
  have h2 : ∑ t in range n, a (l + t) * liftQ l n E γ (l + t) =
      ∑ t in range n, a (l + t) * γ t := by
    refine sum_congr rfl fun t _ => ?_
    rw [liftQ, if_neg (by omega), Nat.add_sub_cancel_left]
  rw [h1, h2, ← sum_add_distrib]
  exact sum_congr rfl fun t _ => (add_mul _ _ _).symm

/-- `A (Q γ) = (A Q) γ`, row by row. -/
theorem mul_liftQ_eq (l n : Nat) (A E : Nat → Nat → K) (γ : Nat → K) (r : Nat) :
    ∑ j in range (l + n), A r j * liftQ l n E γ j =
      ∑ t in range n, blockAQ l A E r t * γ t :=
  sum_mul_liftQ l n E γ (A r)

/-- `Q^T (A (Q γ)) = (Q^T A Q) γ`, row by row. -/
theorem qt_mul_liftQ_eq (l n : Nat) (A E : Nat → Nat → K) (γ : Nat → K) (i : Nat) :
    ∑ k in range l, E k i * (∑ j in range (l + n), A k j * liftQ l n E γ j) +
      ∑ j in range (l + n), A (l + i) j * liftQ l n E γ j =
      ∑ t in range n, blockQtAQ l A E i t * γ t := by
  simp only [mul_liftQ_eq, blockQtAQ, add_mul, sum_add_distrib, mul_sum, sum_mul]
  congr 1
  rw [sum_comm]
  exact sum_congr rfl fun t _ => sum_congr rfl fun k _ => (mul_assoc _ _ _).symm

/-- Orthogonality `P^T (Q γ) = 0`, from `P[l + j, :] = -(-E)[:, j]^T P[:l, :]`.-/
theorem liftQ_orthogonal (l n : Nat) (E P : Nat → Nat → K) (γ : Nat → K) (c : Nat)
    (hP : ∀ j < n, ∑ i in range l, P i c * E i j + P (l + j) c = 0) :
    ∑ j in range (l + n), P j c * liftQ l n E γ j = 0 := by
  rw [sum_mul_liftQ l n E γ (fun j => P j c)]
  exact sum_eq_zero fun t ht => by rw [hP t (mem_range.1 ht), zero_mul]

/-- `Q^T (P c) = 0`, row by row. -/
theorem qt_mul_P_eq_zero (l n : Nat) (E P : Nat → Nat → K) (c : Nat → K) (i : Nat) (hi : i < n)
    (hP : ∀ k < l, ∀ j < n, ∑ r in range l, P r k * E r j + P (l + j) k = 0) :
    ∑ r in range l, E r i * (∑ k in range l, P r k * c k) + ∑ k in range l, P (l + i) k * c k
      = 0 := by
  have h1 : ∑ r in range l, E r i * (∑ k in range l, P r k * c k) =
      ∑ k in range l, (∑ r in range l, P r k * E r i) * c k := by
    simp only [mul_sum, sum_mul]
    rw [sum_comm]
    exact sum_congr rfl fun k _ => sum_congr rfl fun r _ => by ring
  rw [h1, ← sum_add_distrib]
  refine sum_eq_zero fun k hk => ?_
  rw [← add_mul, hP k (mem_range.1 hk) i hi, zero_mul]

end Core

/-! ## Exact linear solving -/

section Bridge
variable {K : Type} [Field K]
open Finset

theorem toMatrix_mulVec (a : MatrixXF K) (n : Nat) (x : Nat → K) (i : Fin n) :
    ((a.toMatrix n).mulVec fun t => x t.val) i = ∑ t in range n, a.coeff i.val t * x t := by
  simp only [Matrix.mulVec, Matrix.dotProduct, MatrixXF.toMatrix, Matrix.of_apply]
  rw [Finset.sum_range]

/-- An invertible matrix has trivial kernel. -/
theorem toMatrix_inj (a : MatrixXF K) (n : Nat) (h : (a.toMatrix n).det ≠ 0) (x : Nat → K)
    (hx : ∀ i < n, ∑ t in range n, a.coeff i t * x t = 0) : ∀ t < n, x t = 0 := by
  have : (a.toMatrix n).mulVec (fun t => x t.val) = 0 := by
    funext i
    rw [toMatrix_mulVec]
    exact hx i.val i.isLt
  have hz := Matrix.eq_zero_of_mulVec_eq_zero h this
  intro t ht
  exact congrFun hz ⟨t, ht⟩

theorem linsolve_size (a : MatrixXF K) (b : VectorXF K) : (linsolve a b).size = a.cols := rfl

/-- Solving against an invertible matrix returns a solution. -/
theorem linsolve_spec (a : MatrixXF K) (b : VectorXF K) (h : (a.toMatrix a.cols).det ≠ 0) :
    ∀ i < a.cols, ∑ t in range a.cols, a.coeff i t * (linsolve a b).coeff t = b.coeff i := by
  intro i hi
  have key : (a.toMatrix a.cols).mulVec
      ((a.toMatrix a.cols).det⁻¹ • (a.toMatrix a.cols).cramer (fun i => b.coeff i.val)) =
      fun i => b.coeff i.val := by
    rw [Matrix.mulVec_smul, Matrix.mulVec_cramer, smul_smul, inv_mul_cancel₀ h, one_smul]
  have := congrFun key ⟨i, hi⟩
  rw [← this]
  simp only [Matrix.mulVec, Matrix.dotProduct, MatrixXF.toMatrix, Matrix.of_apply]
  rw [Finset.sum_range]
  refine Fintype.sum_congr _ _ fun t => ?_
  simp [linsolve, MatrixXF.toMatrix]

end Bridge

/-! ## The phases of `solve` -/

section Accumulate
variable {K : Type} [Field K]
open Finset

/-- The inner accumulation loop `v(i) += g j`, for `j < m`. -/
theorem forLoop_accumulate_coeff (m i : Nat) (g : Nat → K) (v0 : VectorXF K) (k : Nat) :
    (forLoop 0 m (fun j v => v.set i (v.coeff i + g j)) v0).coeff k =
      if k = i then v0.coeff i + ∑ j in range m, g j else v0.coeff k := by
  refine forLoop_invariant (fun t v => v.coeff k =
      if k = i then v0.coeff i + ∑ j in range t, g j else v0.coeff k) 0 m _ v0
    (Nat.zero_le _) (by by_cases hk : k = i <;> simp [hk]) ?_
  intro t st _ _ h
  simp only [VectorXF.set]
  by_cases hk : k = i
  · subst hk
    simp only [if_true] at h ⊢
    rw [h, sum_range_succ, add_assoc]
  · simpa [hk] using h

/-- The nested accumulation loops computing `phi_at_poly_points`. -/
theorem forLoop_accumulate2_coeff (l m : Nat) (g : Nat → Nat → K) (k : Nat) :
    (forLoop 0 l (fun i v => forLoop 0 m (fun j v => v.set i (v.coeff i + g i j)) v)
      (VectorXF.zero l : VectorXF K)).coeff k =
      if k < l then ∑ j in range m, g k j else 0 := by
  refine forLoop_invariant (fun t (v : VectorXF K) => v.coeff k =
      if k < t then ∑ j in range m, g k j else 0) 0 l _ _
    (Nat.zero_le _) (by simp [VectorXF.zero]) ?_
  intro t st _ _ h
  rw [forLoop_accumulate_coeff]
  by_cases hk : k = t
  · subst hk
    have e := h
    simp only [lt_irrefl, if_false] at e
    simp [e]
  · simp only [hk, if_false, h]
    by_cases h1 : k < t
    · simp [h1, Nat.lt_succ_of_lt h1]
    · have : ¬ k < t + 1 := by omega
      simp [h1, this]

end Accumulate

namespace rbf_direct_solver
section SolvePhases
variable {K : Type} [Field K]
open Finset

theorem permute_values_size (s : rbf_direct_solver K) (values : VectorXF K) :
    (permute_values s values).size = values.size := by
  unfold permute_values
  exact forLoop_set_size s.m (fun i => i) (fun i _ => values.coeff (indexAt s.point_idcs i)) _

theorem permute_values_coeff (s : rbf_direct_solver K) (values : VectorXF K) (k : Nat) :
    (permute_values s values).coeff k =
      if k < s.m then values.coeff (indexAt s.point_idcs k) else 0 := by
  unfold permute_values
  rw [forLoop_set_coeff]
  rfl

end SolvePhases

section Unpermute
variable {K : Type}

theorem unpermute_size (s : rbf_direct_solver K) (v : VectorXF K) :
    (unpermute s v).size = v.size := by
  unfold unpermute
  exact forLoop_set_size s.m (fun i => indexAt s.point_idcs i) (fun i _ => v.coeff i) _

theorem unpermute_coeff (s : rbf_direct_solver K) (v : VectorXF K)
    (hg : ∀ i < s.m, ∀ j < s.m, indexAt s.point_idcs i = indexAt s.point_idcs j → i = j) :
    (∀ i < s.m, (unpermute s v).coeff (indexAt s.point_idcs i) = v.coeff i) ∧
    (∀ k, (∀ i < s.m, indexAt s.point_idcs i ≠ k) → (unpermute s v).coeff k = v.coeff k) := by
  unfold unpermute
  exact forLoop_scatter_coeff s.m (fun i => indexAt s.point_idcs i) (fun i => v.coeff i) v hg

end Unpermute
end rbf_direct_solver

/-! ## Closed forms of `setup` -/

section Push
variable {α : Type}

theorem foldl_push (f : Nat → α) (xs : List Nat) (init : List α) :
    xs.foldl (fun st i => st ++ [f i]) init = init ++ xs.map f := by
  induction xs generalizing init with
  | nil => simp
  | cons x xs ih => simp [ih]

/-- A loop of `push_back` calls appends the pushed values in order. -/
theorem forLoop_push (lo hi : Nat) (f : Nat → α) (init : List α) :
    forLoop lo hi (fun i pp => pp ++ [f i]) init = init ++ (List.range' lo (hi - lo)).map f := by
  unfold forLoop
  exact foldl_push f _ init

end Push

section PointAt
variable {K : Type} [Field K]

theorem pointAt_map_range' (f : Nat → Vector3F K) (lo n j : Nat) (hj : j < n) :
    pointAt ((List.range' lo n).map f) j = f (lo + j) := by
  unfold pointAt
  rw [List.getD_eq_getElem _ _ (by simpa using hj)]
  simp

end PointAt

namespace rbf_direct_solver
section SetupForm
variable {K : Type} [Field K]
open Finset

variable (B : polynomial_bases K) (s : rbf_direct_solver K) (points : List (Vector3F K))
  (shuffled : List Nat)

theorem setup_frame : (setup B s points shuffled).l = s.l ∧ (setup B s points shuffled).m = s.m ∧
    (setup B s points shuffled).poly_degree = s.poly_degree ∧
    (setup B s points shuffled).rbf = s.rbf := by
  unfold setup
  split <;> exact ⟨rfl, rfl, rfl, rfl⟩

theorem setup_point_idcs (h : 0 ≤ s.poly_degree) :
    (setup B s points shuffled).point_idcs = shuffled := by
  unfold setup
  rw [if_pos h]

theorem setup_poly_points (h : 0 ≤ s.poly_degree) :
    (setup B s points shuffled).poly_points =
      s.poly_points ++ (List.range' 0 s.l).map (refPoint points shuffled) := by
  unfold setup
  rw [if_pos h]
  exact forLoop_push 0 s.l _ _

theorem setup_me_size (h : 0 ≤ s.poly_degree) :
    (setup B s points shuffled).me.rows = B.dimension s.poly_degree ∧
    (setup B s points shuffled).me.cols = s.m - s.l := by
  unfold setup
  rw [if_pos h]
  simp only [MatrixXF.neg, lagrange_evaluate_points, forLoop_push]
  simp

theorem setup_me_coeff (h : 0 ≤ s.poly_degree) (i j : Nat) (hj : j < s.m - s.l) :
    (setup B s points shuffled).me.coeff i j =
      - B.lagrange s.poly_degree (setup B s points shuffled).poly_points i
          (refPoint points shuffled (s.l + j)) := by
  rw [setup_poly_points B s points shuffled h]
  unfold setup
  rw [if_pos h]
  simp only [MatrixXF.neg, lagrange_evaluate_points, forLoop_push, List.nil_append]
  rw [pointAt_map_range' _ _ _ _ hj]
  rfl

theorem setup_a_top (h : 0 ≤ s.poly_degree) :
    (setup B s points shuffled).a_top = (computeA s.rbf points shuffled s.m).1.topRows s.l := by
  unfold setup
  rw [if_pos h]

theorem setup_qtaq_cols (h : 0 ≤ s.poly_degree) :
    (setup B s points shuffled).ldlt_of_qtaq.matrix.cols = s.m - s.l := by
  unfold setup
  rw [if_pos h]
  simp [MatrixXF.ldlt, MatrixXF.add, MatrixXF.mul, MatrixXF.topRows, MatrixXF.leftCols,
    MatrixXF.neg, lagrange_evaluate_points, forLoop_push]

theorem setup_qtaq_coeff (h : 0 ≤ s.poly_degree) (hl : s.l = B.dimension s.poly_degree)
    (hlm : s.l ≤ s.m) (hm : 0 < s.m) (i j : Nat) :
    (setup B s points shuffled).ldlt_of_qtaq.matrix.coeff i j =
      blockQtAQ s.l (computeA s.rbf points shuffled s.m).1.coeff
        (setup B s points shuffled).me.coeff i j := by
  obtain ⟨r1, r2, -⟩ := computeA_inv s.rbf points shuffled s.m hm
  have hs : size_t_sub s.m s.l = s.m - s.l := by simp [size_t_sub, hlm]
  have e : s.m - (s.m - s.l) = s.l := by omega
  unfold setup
  rw [if_pos h]
  simp only [MatrixXF.ldlt, MatrixXF.add, MatrixXF.mul, MatrixXF.topRows, MatrixXF.leftCols,
    MatrixXF.rightCols, MatrixXF.bottomRows, MatrixXF.transpose, MatrixXF.neg,
    lagrange_evaluate_points, blockQtAQ, blockAQ, hs, r1, r2, e, ← hl]

end SetupForm
end rbf_direct_solver

/-! ## Closed forms of the middle part of `solve` -/

namespace rbf_direct_solver
section LambdaForm
variable {K : Type} [Field K]
open Finset

variable (B : polynomial_bases K) (s : rbf_direct_solver K) (vp : VectorXF K)

theorem compute_qtd_coeff (h : 0 ≤ s.poly_degree) (hlm : s.l ≤ s.m) (hrows : s.me.rows = s.l)
    (hvp : vp.size = s.m) (i : Nat) :
    (compute_qtd s vp).coeff i = blockQtd s.l s.me.coeff vp.coeff i := by
  have hs : size_t_sub s.m s.l = s.m - s.l := by simp [size_t_sub, hlm]
  have e : s.m - (s.m - s.l) = s.l := by omega
  simp only [compute_qtd, if_pos h, VectorXF.add, MatrixXF.mulVec, MatrixXF.transpose,
    VectorXF.head, VectorXF.tail, blockQtd, hs, hrows, hvp, e]

theorem compute_qtd_of_neg (h : ¬ 0 ≤ s.poly_degree) : compute_qtd s vp = vp := by
  simp only [compute_qtd, if_neg h]

theorem compute_lambda_size : (compute_lambda s vp).size = s.m + s.l := rfl

theorem compute_lambda_coeff (hlm : s.l ≤ s.m) (hcols : s.me.cols = s.m - s.l) (j : Nat)
    (hj : j < s.m) :
    (compute_lambda s vp).coeff j =
      liftQ s.l (s.m - s.l) s.me.coeff (s.ldlt_of_qtaq.solve (compute_qtd s vp)).coeff j := by
  have hs : size_t_sub s.m s.l = s.m - s.l := by simp [size_t_sub, hlm]
  simp only [compute_lambda, lift_gamma, VectorXF.setSegment, VectorXF.setHead, VectorXF.alloc,
    MatrixXF.mulVec, liftQ, hs, hcols]
  by_cases hjl : j < s.l
  · have e2 : ¬ (s.l ≤ j ∧ j < s.l + (s.m - s.l)) := by omega
    simp only [e2, hjl, if_true, if_false]
  · have e2 : s.l ≤ j ∧ j < s.l + (s.m - s.l) := by omega
    simp only [e2, hjl, if_true, if_false, and_self]

theorem compute_residual_coeff (lam : VectorXF K) (i : Nat) (hi : i < s.l) :
    (compute_residual s vp lam).coeff i =
      vp.coeff i - ∑ j in range s.m, s.a_top.coeff i j * lam.coeff j := by
  simp only [compute_residual, VectorXF.sub]
  rw [forLoop_set_coeff, forLoop_accumulate2_coeff s.l s.m
    (fun i j => lam.coeff j * s.a_top.coeff i j)]
  simp only [hi, if_true]
  congr 1
  exact sum_congr rfl fun j _ => mul_comm _ _

theorem compute_lambda_c_size (h : 0 ≤ s.poly_degree) :
    (compute_lambda_c B s vp).size = s.m + s.l := by
  simp only [compute_lambda_c, if_pos h]
  rfl

theorem compute_lambda_c_weights (h : 0 ≤ s.poly_degree) (j : Nat) (hj : j < s.m) :
    (compute_lambda_c B s vp).coeff j = (compute_lambda s vp).coeff j := by
  have e1 : ¬ (s.m + s.l - s.l ≤ j ∧ j < s.m + s.l) := by omega
  simp only [compute_lambda_c, if_pos h, VectorXF.setTail, compute_lambda_size, e1, if_false]

theorem compute_lambda_c_tail (h : 0 ≤ s.poly_degree) (k : Nat) (hk : k < s.l) :
    (compute_lambda_c B s vp).coeff (s.m + k) =
      (poly_coefficients B s vp (compute_lambda s vp)).coeff k := by
  have e1 : s.m + s.l - s.l ≤ s.m + k ∧ s.m + k < s.m + s.l := by omega
  have e2 : s.m + k - (s.m + s.l - s.l) = k := by omega
  simp only [compute_lambda_c, if_pos h, VectorXF.setTail, compute_lambda_size, e1, e2,
    if_true, and_self]

/-- The polynomial coefficients solve the monomial system at the reference points, with the
residual `d - A lambda` on the right-hand side. -/
theorem compute_lambda_c_poly (h : 0 ≤ s.poly_degree) (hl : s.l = B.dimension s.poly_degree)
    (hdet : ((monomial_evaluate_points B s.poly_degree s.poly_points).transpose.toMatrix
      s.l).det ≠ 0) (i : Nat) (hi : i < s.l) :
    ∑ k in range s.l, B.monomial s.poly_degree k (pointAt s.poly_points i) *
        (compute_lambda_c B s vp).coeff (s.m + k) =
      vp.coeff i - ∑ j in range s.m, s.a_top.coeff i j * (compute_lambda_c B s vp).coeff j := by
  have hc : (monomial_evaluate_points B s.poly_degree s.poly_points).transpose.cols = s.l := by
    simp [monomial_evaluate_points, MatrixXF.transpose, hl]
  have key := linsolve_spec (monomial_evaluate_points B s.poly_degree s.poly_points).transpose
    (compute_residual s vp (compute_lambda s vp)) (by rw [hc]; exact hdet) i (by rw [hc]; exact hi)
  rw [hc, compute_residual_coeff s vp _ i hi] at key
  have e : ∑ j in range s.m, s.a_top.coeff i j * (compute_lambda_c B s vp).coeff j =
      ∑ j in range s.m, s.a_top.coeff i j * (compute_lambda s vp).coeff j :=
    sum_congr rfl fun j hj => by rw [compute_lambda_c_weights B s vp h j (mem_range.1 hj)]
  rw [e, ← key]
  refine sum_congr rfl fun k hk => ?_
  rw [compute_lambda_c_tail B s vp h k (mem_range.1 hk)]
  rfl

end LambdaForm
end rbf_direct_solver

/-! ## Lagrange bases and permutations -/

section Lagrange
variable {K : Type} [Field K]
open Finset

theorem lagrange_matrix_inverse (B : polynomial_bases K) (degree : Int)
    (pts : List (Vector3F K)) (C : Nat → Nat → K)
    (hC : ∀ i < B.dimension degree, ∀ x, B.lagrange degree pts i x =
      ∑ k in range (B.dimension degree), C i k * B.monomial degree k x)
    (hd : ∀ i < B.dimension degree, ∀ j < B.dimension degree,
      B.lagrange degree pts i (pointAt pts j) = if i = j then 1 else 0) :
    (Matrix.of fun (i k : Fin (B.dimension degree)) => C i.val k.val) *
      (Matrix.of fun (k j : Fin (B.dimension degree)) => B.monomial degree k.val (pointAt pts j.val))
      = 1 := by
  ext i j
  simp only [Matrix.mul_apply, Matrix.of_apply, Matrix.one_apply]
  rw [← Finset.sum_range (fun k => C i.val k * B.monomial degree k (pointAt pts j.val)),
    ← hC i.val i.isLt, hd i.val i.isLt j.val j.isLt]
  simp [Fin.ext_iff]

/-- The monomial matrix at unisolvent reference points is invertible. -/
theorem lagrange_det_ne_zero (B : polynomial_bases K) (degree : Int)
    (pts : List (Vector3F K)) (h : IsLagrangeBasis B degree pts) :
    ((monomial_evaluate_points B degree pts).transpose.toMatrix (B.dimension degree)).det ≠ 0 := by
  obtain ⟨⟨C, hC⟩, hd⟩ := h
  have e := lagrange_matrix_inverse B degree pts C hC hd
  have e2 : (monomial_evaluate_points B degree pts).transpose.toMatrix (B.dimension degree) =
      (Matrix.of fun (k j : Fin (B.dimension degree)) =>
        B.monomial degree k.val (pointAt pts j.val)).transpose := by
    ext i j
    simp [MatrixXF.toMatrix, MatrixXF.transpose, monomial_evaluate_points]
  rw [e2, Matrix.det_transpose]
  exact Matrix.det_ne_zero_of_left_inverse e

/-- The Lagrange basis reproduces every monomial of the degree from its values at the
reference points. -/
theorem lagrange_reproduces (B : polynomial_bases K) (degree : Int)
    (pts : List (Vector3F K)) (h : IsLagrangeBasis B degree pts) (k : Nat)
    (hk : k < B.dimension degree) (x : Vector3F K) :
    ∑ i in range (B.dimension degree), B.monomial degree k (pointAt pts i) *
      B.lagrange degree pts i x = B.monomial degree k x := by
  obtain ⟨⟨C, hC⟩, hd⟩ := h
  have e := lagrange_matrix_inverse B degree pts C hC hd
  rw [Matrix.mul_eq_one_comm] at e
  have e' : ∀ k' < B.dimension degree, ∑ i in range (B.dimension degree),
      B.monomial degree k (pointAt pts i) * C i k' = if k = k' then 1 else 0 := by
    intro k' hk'
    have := congrFun (congrFun e ⟨k, hk⟩) ⟨k', hk'⟩
    simp only [Matrix.mul_apply, Matrix.of_apply, Matrix.one_apply] at this
    rw [Finset.sum_range (fun i => B.monomial degree k (pointAt pts i) * C i k'), this]
    simp [Fin.ext_iff]
  calc ∑ i in range (B.dimension degree), B.monomial degree k (pointAt pts i) *
        B.lagrange degree pts i x
      = ∑ i in range (B.dimension degree), ∑ k' in range (B.dimension degree),
          B.monomial degree k (pointAt pts i) * C i k' * B.monomial degree k' x := by
        refine sum_congr rfl fun i hi => ?_
        rw [hC i (mem_range.1 hi), mul_sum]
        exact sum_congr rfl fun k' _ => (mul_assoc _ _ _).symm
    _ = ∑ k' in range (B.dimension degree), (∑ i in range (B.dimension degree),
          B.monomial degree k (pointAt pts i) * C i k') * B.monomial degree k' x := by
        rw [sum_comm]
        exact sum_congr rfl fun k' _ => (sum_mul _ _ _).symm
    _ = ∑ k' in range (B.dimension degree), (if k = k' then 1 else 0) * B.monomial degree k' x :=
        sum_congr rfl fun k' hk' => by rw [e' k' (mem_range.1 hk')]
    _ = B.monomial degree k x := by
        simp [ite_mul, hk]

end Lagrange

section Perm
open Finset

theorem sum_range_getD {M : Type} [AddCommMonoid M] (f : Nat → M) (xs : List Nat) :
    ∑ j in range xs.length, f (xs.getD j 0) = (xs.map f).sum := by
  induction xs with
  | nil => simp
  | cons a t ih =>
    rw [List.length_cons, sum_range_succ', List.map_cons, List.sum_cons, add_comm]
    congr 1

variable {m : Nat} {shuffled : List Nat}

theorem perm_length (h : shuffled.Perm (List.range m)) : shuffled.length = m := by
  simpa using h.length_eq

/-- Sums over the shuffled indices are sums over all indices. -/
theorem perm_sum {M : Type} [AddCommMonoid M] (h : shuffled.Perm (List.range m)) (f : Nat → M) :
    ∑ j in range m, f (indexAt shuffled j) = ∑ b in range m, f b := by
  have e1 := sum_range_getD f shuffled
  rw [perm_length h] at e1
  have e2 := sum_range_getD f (List.range m)
  rw [List.length_range] at e2
  have e3 : ∑ j in range m, f ((List.range m).getD j 0) = ∑ b in range m, f b :=
    sum_congr rfl fun j hj => by
      rw [List.getD_eq_getElem _ _ (by simpa using mem_range.1 hj)]; simp
  unfold indexAt
  rw [e1, (h.map f).sum_eq, ← e2, e3]

theorem perm_lt (h : shuffled.Perm (List.range m)) (i : Nat) (hi : i < m) :
    indexAt shuffled i < m := by
  unfold indexAt
  rw [List.getD_eq_getElem _ _ (by rw [perm_length h]; exact hi)]
  exact List.mem_range.1 (h.subset (List.getElem_mem _))

theorem perm_inj (h : shuffled.Perm (List.range m)) (i : Nat) (hi : i < m) (j : Nat)
    (hj : j < m) (e : indexAt shuffled i = indexAt shuffled j) : i = j := by
  unfold indexAt at e
  rw [List.getD_eq_getElem _ _ (by rw [perm_length h]; exact hi),
    List.getD_eq_getElem _ _ (by rw [perm_length h]; exact hj)] at e
  have hn : shuffled.Nodup := h.nodup_iff.2 (List.nodup_range m)
  exact (List.Nodup.getElem_inj_iff hn).1 e

theorem perm_surj (h : shuffled.Perm (List.range m)) (a : Nat) (ha : a < m) :
    ∃ i < m, indexAt shuffled i = a := by
  have hmem : a ∈ shuffled := h.mem_iff.2 (List.mem_range.2 ha)
  obtain ⟨i, hi, e⟩ := List.getElem_of_mem hmem
  refine ⟨i, by rw [← perm_length h]; exact hi, ?_⟩
  unfold indexAt
  rw [List.getD_eq_getElem _ _ hi]
  exact e

end Perm

/-! ## Exactness in the internal order -/

namespace rbf_direct_solver
section Permuted
variable {K : Type} [Field K]
open Finset

variable (B : polynomial_bases K) (s : rbf_direct_solver K) (points : List (Vector3F K))
  (shuffled : List Nat)

theorem setup_poly_points_fresh (h : 0 ≤ s.poly_degree) (hc : Constructed B s) :
    (setup B s points shuffled).poly_points = (List.range' 0 s.l).map (refPoint points shuffled) := by
  rw [setup_poly_points B s points shuffled h, hc.2.2, List.nil_append]

theorem setup_pointAt_poly_points (h : 0 ≤ s.poly_degree) (hc : Constructed B s) (i : Nat)
    (hi : i < s.l) :
    pointAt (setup B s points shuffled).poly_points i = refPoint points shuffled i := by
  rw [setup_poly_points_fresh B s points shuffled h hc, pointAt_map_range' _ _ _ _ hi,
    Nat.zero_add]

/-- After `setup`, every monomial sampled at an "other" point is the `-E`-combination of its
samples at the reference points: `P[l + j, :] + (-E)[:, j]^T P[:l, :] = 0`. -/
theorem setup_me_monomial (h : 0 ≤ s.poly_degree) (hc : Constructed B s)
    (hL : IsLagrangeBasis B s.poly_degree (setup B s points shuffled).poly_points)
    (k : Nat) (hk : k < s.l) (j : Nat) (hj : j < s.m - s.l) :
    ∑ r in range s.l, B.monomial s.poly_degree k (refPoint points shuffled r) *
        (setup B s points shuffled).me.coeff r j +
      B.monomial s.poly_degree k (refPoint points shuffled (s.l + j)) = 0 := by
  have hl := hc.1
  have e := lagrange_reproduces B s.poly_degree _ hL k (hl ▸ hk)
    (refPoint points shuffled (s.l + j))
  rw [← hl] at e
  rw [← e, ← sum_add_distrib]
  refine sum_eq_zero fun r hr => ?_
  rw [setup_me_coeff B s points shuffled h r j hj,
    setup_pointAt_poly_points B s points shuffled h hc r (mem_range.1 hr)]
  ring

end Permuted
end rbf_direct_solver

/-! ## Exactness in the original order -/

namespace rbf_direct_solver
section UnpermuteEntries
variable {K : Type} (s : rbf_direct_solver K)

/-- The entries of the result of `solve`, in terms of `lambda_c`: the weight of internal index
`i` is at position `point_idcs[i]`, the entries from `m` on are untouched. -/
theorem unpermute_entries (hperm : s.point_idcs.Perm (List.range s.m)) (v : VectorXF K) :
    (∀ i < s.m, (unpermute s v).coeff (indexAt s.point_idcs i) = v.coeff i) ∧
    (∀ k, s.m ≤ k → (unpermute s v).coeff k = v.coeff k) := by
  obtain ⟨h1, h2⟩ := unpermute_coeff s v (fun i hi j hj e => perm_inj hperm i hi j hj e)
  refine ⟨h1, fun k hk => h2 k fun i hi e => ?_⟩
  have := perm_lt hperm i hi
  omega

end UnpermuteEntries

section Original
variable {K : Type} [Field K]
open Finset

/-- The entries of the matrix built by "Compute A". -/
theorem computeA_coeff (rbf : rbf_base K) (points : List (Vector3F K)) (point_idcs : List Nat)
    (m : Nat) (i j : Nat) (hi : i < m) (hj : j < m) :
    (computeA rbf points point_idcs m).1.coeff i j =
      if i = j then rbf.evaluate 0 + rbf.nugget
      else if i < j then kernelAt rbf points point_idcs i j
      else kernelAt rbf points point_idcs j i := by
  obtain ⟨-, -, h3, h4, -, -⟩ := computeA_inv rbf points point_idcs m (by omega)
  by_cases e : i = j
  · subst e; simp [h3 i hi]
  · by_cases e2 : i < j
    · simp only [e, e2, if_true, if_false]
      exact (h4 i j e2 hj (by omega)).1
    · simp only [e, e2, if_false]
      exact (h4 j i (by omega) hi (by omega)).2

/-- For a symmetric kernel and distinct indices, the matrix built by "Compute A" is the kernel
matrix in the internal order. -/
theorem computeA_kernelMatrix (rbf : rbf_base K) (points : List (Vector3F K))
    (point_idcs : List Nat) (m : Nat)
    (hsym : ∀ p q, rbf.evaluate2 p q = rbf.evaluate2 q p)
    (hinj : ∀ i < m, ∀ j < m, indexAt point_idcs i = indexAt point_idcs j → i = j)
    (i j : Nat) (hi : i < m) (hj : j < m) :
    (computeA rbf points point_idcs m).1.coeff i j =
      kernelMatrix rbf points (indexAt point_idcs i) (indexAt point_idcs j) := by
  rw [computeA_coeff rbf points point_idcs m i j hi hj]
  unfold kernelMatrix kernelAt
  by_cases e : i = j
  · subst e; simp
  · have e' : indexAt point_idcs i ≠ indexAt point_idcs j := fun h => e (hinj i hi j hj h)
    simp only [e, e', if_false]
    split
    · rfl
    · exact hsym _ _

variable (B : polynomial_bases K) (s : rbf_direct_solver K) (points : List (Vector3F K))
  (shuffled : List Nat)

/-- The result of `solve` on a vector of the right length. -/
theorem solve_eq (values : VectorXF K) (hv : values.size = s.m) :
    solve B s values = some (unpermute s (compute_lambda_c B s (permute_values s values))) := by
  unfold solve
  simp [hv]

end Original
end rbf_direct_solver

/-! ## Orthogonality of the weights -/

namespace rbf_direct_solver
section Orthogonal
variable {K : Type} [Field K]
open Finset

theorem lift_gamma_coeff (s : rbf_direct_solver K) (gamma : VectorXF K) (hlm : s.l ≤ s.m)
    (hcols : s.me.cols = s.m - s.l) (j : Nat) (hj : j < s.m) :
    (lift_gamma s gamma).coeff j = liftQ s.l (s.m - s.l) s.me.coeff gamma.coeff j := by
  have hs : size_t_sub s.m s.l = s.m - s.l := by simp [size_t_sub, hlm]
  simp only [lift_gamma, VectorXF.setSegment, VectorXF.setHead, VectorXF.alloc,
    MatrixXF.mulVec, liftQ, hs, hcols]
  by_cases hjl : j < s.l
  · have e2 : ¬ (s.l ≤ j ∧ j < s.l + (s.m - s.l)) := by omega
    simp only [e2, hjl, if_true, if_false]
  · have e2 : s.l ≤ j ∧ j < s.l + (s.m - s.l) := by omega
    simp only [e2, hjl, if_true, if_false, and_self]

variable (B : polynomial_bases K) (s : rbf_direct_solver K) (points : List (Vector3F K))
  (shuffled : List Nat)

/-- Orthogonality in the internal order: after `setup`, every lifted vector `Q gamma` is
orthogonal to each monomial sampled at the permuted points. -/
theorem lift_gamma_orthogonal (h : 0 ≤ s.poly_degree) (hc : Constructed B s)
    (hL : IsLagrangeBasis B s.poly_degree (setup B s points shuffled).poly_points)
    (gamma : VectorXF K) (k : Nat) (hk : k < s.l) :
    ∑ j in range s.m, B.monomial s.poly_degree k (refPoint points shuffled j) *
      (lift_gamma (setup B s points shuffled) gamma).coeff j = 0 := by
  obtain ⟨fl, fm, -, -⟩ := setup_frame B s points shuffled
  obtain ⟨-, mc⟩ := setup_me_size B s points shuffled h
  have hlm := hc.2.1
  have hmn : s.l + (s.m - s.l) = s.m := by omega
  have key := liftQ_orthogonal s.l (s.m - s.l) (setup B s points shuffled).me.coeff
    (fun r k => B.monomial s.poly_degree k (refPoint points shuffled r)) gamma.coeff k
    (fun j hj => setup_me_monomial B s points shuffled h hc hL k hk j hj)
  rw [hmn] at key
  rw [← key]
  refine sum_congr rfl fun j hj => ?_
  rw [lift_gamma_coeff _ gamma (by rw [fl, fm]; omega) (by rw [mc, fl, fm]) j
    (by rw [fm]; exact mem_range.1 hj), fl, fm]

/-- Orthogonality in the original order: the weights un-permuted by `solve` are orthogonal to
each monomial sampled at the points. -/
theorem unpermute_orthogonal (h : 0 ≤ s.poly_degree) (hc : Constructed B s)
    (hperm : shuffled.Perm (List.range s.m))
    (hL : IsLagrangeBasis B s.poly_degree (setup B s points shuffled).poly_points)
    (vp : VectorXF K) (k : Nat) (hk : k < s.l) :
    ∑ a in range s.m, monomialMatrix B s.poly_degree points a k *
      (unpermute (setup B s points shuffled)
        (compute_lambda_c B (setup B s points shuffled) vp)).coeff a = 0 := by
  obtain ⟨fl, fm, fd, fr⟩ := setup_frame B s points shuffled
  have hidx := setup_point_idcs B s points shuffled h
  have hperm' : (setup B s points shuffled).point_idcs.Perm
      (List.range (setup B s points shuffled).m) := by rw [hidx, fm]; exact hperm
  obtain ⟨u1, -⟩ := unpermute_entries (setup B s points shuffled) hperm'
    (compute_lambda_c B (setup B s points shuffled) vp)
  rw [hidx, fm] at u1
  rw [← perm_sum hperm, ← lift_gamma_orthogonal B s points shuffled h hc hL
    ((setup B s points shuffled).ldlt_of_qtaq.solve (compute_qtd (setup B s points shuffled) vp))
    k hk]
  refine sum_congr rfl fun j hj => ?_
  rw [u1 j (mem_range.1 hj), compute_lambda_c_weights B _ vp (by rw [fd]; exact h) j
    (by rw [fm]; exact mem_range.1 hj)]
  rfl

end Orthogonal
end rbf_direct_solver

/-! ## Polynomial reproduction in the internal order -/

namespace rbf_direct_solver
section Reproduction
variable {K : Type} [Field K]
open Finset

variable (B : polynomial_bases K) (s : rbf_direct_solver K) (points : List (Vector3F K))
  (shuffled : List Nat)

theorem liftQ_zero (l n : Nat) (E : Nat → Nat → K) (γ : Nat → K) (hγ : ∀ t < n, γ t = 0)
    (j : Nat) (hj : j < l + n) : liftQ l n E γ j = 0 := by
  unfold liftQ
  split
  · exact sum_eq_zero fun t ht => by rw [hγ t (mem_range.1 ht), mul_zero]
  · exact hγ _ (by omega)

/-- Polynomial reproduction in the internal order: on values sampled from a polynomial,
`lambda_c` has zero weights and the coefficients of that polynomial. -/
theorem compute_lambda_c_reproduces (h : 0 ≤ s.poly_degree) (hc : Constructed B s)
    (hL : IsLagrangeBasis B s.poly_degree (setup B s points shuffled).poly_points)
    (hdet : ((setup B s points shuffled).ldlt_of_qtaq.matrix.toMatrix (s.m - s.l)).det ≠ 0)
    (vp : VectorXF K) (hvp : vp.size = s.m) (c0 : Nat → K)
    (hd : ∀ i < s.m, vp.coeff i =
      ∑ k in range s.l, B.monomial s.poly_degree k (refPoint points shuffled i) * c0 k) :
    (∀ j < s.m, (compute_lambda_c B (setup B s points shuffled) vp).coeff j = 0) ∧
    (∀ k < s.l, (compute_lambda_c B (setup B s points shuffled) vp).coeff (s.m + k) = c0 k) := by
  obtain ⟨hl, hlm, hpp⟩ := hc
  obtain ⟨fl, fm, fd, fr⟩ := setup_frame B s points shuffled
  have h' : 0 ≤ (setup B s points shuffled).poly_degree := by rw [fd]; exact h
  have hle : (setup B s points shuffled).l ≤ (setup B s points shuffled).m := by
    rw [fl, fm]; omega
  obtain ⟨mr, mc⟩ := setup_me_size B s points shuffled h
  have hcols := setup_qtaq_cols B s points shuffled h
  have hmn : s.l + (s.m - s.l) = s.m := by omega
  -- the reduced right-hand side vanishes
  have hq : ∀ i < s.m - s.l, (compute_qtd (setup B s points shuffled) vp).coeff i = 0 := by
    intro i hi
    rw [compute_qtd_coeff _ vp h' hle (by rw [mr, fl, hl]) (by rw [fm]; exact hvp), fl, blockQtd,
      hd (s.l + i) (by omega)]
    rw [← qt_mul_P_eq_zero s.l (s.m - s.l) (setup B s points shuffled).me.coeff
      (fun r k => B.monomial s.poly_degree k (refPoint points shuffled r)) c0 i hi
      (fun k hk j hj => setup_me_monomial B s points shuffled h ⟨hl, hlm, hpp⟩ hL k hk j hj)]
    congr 1
    exact sum_congr rfl fun r hr => by rw [hd r (by have := mem_range.1 hr; omega)]
  -- so does the solution of the reduced system
  have hg : ∀ t < s.m - s.l, ((setup B s points shuffled).ldlt_of_qtaq.solve
      (compute_qtd (setup B s points shuffled) vp)).coeff t = 0 := by
    refine toMatrix_inj (setup B s points shuffled).ldlt_of_qtaq.matrix _ hdet _ ?_
    intro i hi
    have sp := linsolve_spec (setup B s points shuffled).ldlt_of_qtaq.matrix
      (compute_qtd (setup B s points shuffled) vp) (by rw [hcols]; exact hdet) i
      (by rw [hcols]; exact hi)
    rw [hcols, hq i hi] at sp
    exact sp
  have hw : ∀ j < s.m, (compute_lambda_c B (setup B s points shuffled) vp).coeff j = 0 := by
    intro j hj
    rw [compute_lambda_c_weights B _ vp h' j (by rw [fm]; exact hj),
      compute_lambda_coeff _ vp hle (by rw [mc, fl, fm]) j (by rw [fm]; exact hj), fl, fm]
    exact liftQ_zero _ _ _ _ hg j (by omega)
  refine ⟨hw, ?_⟩
  have hd' : ((monomial_evaluate_points B (setup B s points shuffled).poly_degree
      (setup B s points shuffled).poly_points).transpose.toMatrix
      (setup B s points shuffled).l).det ≠ 0 := by
    rw [fd, fl, hl]
    exact lagrange_det_ne_zero B s.poly_degree _ hL
  have key := toMatrix_inj _ _ hd'
    (fun k => (compute_lambda_c B (setup B s points shuffled) vp).coeff (s.m + k) - c0 k) ?_
  · intro k hk
    exact sub_eq_zero.1 (key k (by rw [fl]; exact hk))
  · intro i hi
    rw [fl] at hi
    have pc := compute_lambda_c_poly B (setup B s points shuffled) vp h'
      (by rw [fl, fd]; exact hl) hd' i (by rw [fl]; exact hi)
    have z : ∑ j in range (setup B s points shuffled).m,
        (setup B s points shuffled).a_top.coeff i j *
          (compute_lambda_c B (setup B s points shuffled) vp).coeff j = 0 :=
      sum_eq_zero fun j hj => by
        rw [hw j (by rw [← fm]; exact mem_range.1 hj), mul_zero]
    rw [z, sub_zero, hd i (by omega), fl, fd,
      setup_pointAt_poly_points B s points shuffled h ⟨hl, hlm, hpp⟩ i hi, fm] at pc
    rw [fl, fd]
    simp only [mul_sub, sum_sub_distrib]
    rw [sub_eq_zero]
    have he : ∀ x, (monomial_evaluate_points B s.poly_degree
        (setup B s points shuffled).poly_points).transpose.coeff i x =
        B.monomial s.poly_degree x (refPoint points shuffled i) := by
      intro x
      simp only [MatrixXF.transpose, monomial_evaluate_points]
      rw [setup_pointAt_poly_points B s points shuffled h ⟨hl, hlm, hpp⟩ i hi]
    simp only [he]
    exact pc

end Reproduction
end rbf_direct_solver

/-! ## Uniqueness of the interpolant -/

namespace rbf_direct_solver
section Unique
variable {K : Type} [Field K]
open Finset

variable (B : polynomial_bases K) (s : rbf_direct_solver K) (points : List (Vector3F K))
  (shuffled : List Nat)

end Unique
end rbf_direct_solver


/-! ## The path without polynomial term -/

section LoopId
variable {σ : Type}

theorem forLoop_id (lo hi : Nat) (body : Nat → σ → σ) (init : σ)
    (h : ∀ i st, body i st = st) : forLoop lo hi body init = init := by
  by_cases hle : lo ≤ hi
  · exact forLoop_invariant (fun _ st => st = init) lo hi body init hle rfl
      (fun i st _ _ e => by rw [h, e])
  · exact forLoop_of_ge lo hi body init (by omega)

end LoopId

section PermEquiv
open Finset

theorem indexAt_range (m i : Nat) (hi : i < m) : indexAt (List.range m) i = i := by
  unfold indexAt
  rw [List.getD_eq_getElem _ _ (by simpa using hi)]
  simp

theorem perm_exists_equiv {m : Nat} {shuffled : List Nat} (h : shuffled.Perm (List.range m)) :
    ∃ e : Fin m ≃ Fin m, ∀ i : Fin m, (e i).val = indexAt shuffled i.val := by
  have hinj : Function.Injective
      (fun i : Fin m => (⟨indexAt shuffled i.val, perm_lt h i.val i.isLt⟩ : Fin m)) := by
    intro i j e
    have := congrArg Fin.val e
    exact Fin.ext (perm_inj h i.val i.isLt j.val j.isLt this)
  exact ⟨Equiv.ofBijective _ (Finite.injective_iff_bijective.1 hinj), fun i => rfl⟩

end PermEquiv

namespace rbf_direct_solver
section NoTrend
variable {K : Type} [Field K]
open Finset

theorem computeA_zero (rbf : rbf_base K) (points : List (Vector3F K)) (point_idcs : List Nat) :
    computeA rbf points point_idcs 0 = (MatrixXF.alloc 0 0, []) := by
  unfold computeA
  simp only
  rw [forLoop_id _ _ _ _ (fun i st => forLoop_of_ge _ _ _ _ (Nat.zero_le _)),
    forLoop_of_ge _ _ _ _ (le_refl _)]

theorem computeA_size (rbf : rbf_base K) (points : List (Vector3F K)) (point_idcs : List Nat)
    (m : Nat) :
    (computeA rbf points point_idcs m).1.rows = m ∧
    (computeA rbf points point_idcs m).1.cols = m := by
  rcases Nat.eq_zero_or_pos m with h | h
  · subst h
    rw [computeA_zero]
    exact ⟨rfl, rfl⟩
  · obtain ⟨h1, h2, -⟩ := computeA_inv rbf points point_idcs m h
    exact ⟨h1, h2⟩

variable (B : polynomial_bases K) (s : rbf_direct_solver K) (points : List (Vector3F K))
  (shuffled : List Nat)

theorem setup_lu (h : ¬ 0 ≤ s.poly_degree) :
    (setup B s points shuffled).point_idcs = List.range s.m ∧
    (setup B s points shuffled).lu_of_a.matrix =
      (computeA s.rbf points (List.range s.m) s.m).1 := by
  unfold setup
  rw [if_neg h]
  exact ⟨rfl, rfl⟩

theorem compute_lambda_c_of_neg (h : ¬ 0 ≤ s.poly_degree) (vp : VectorXF K) :
    compute_lambda_c B s vp = linsolve s.lu_of_a.matrix vp := by
  simp only [compute_lambda_c, if_neg h, compute_qtd_of_neg s vp h, PartialPivLU.solve]

/-- The matrix built for a permutation of the points has the determinant of the matrix
built for the points in their original order. -/
theorem computeA_det_perm (rbf : rbf_base K) (m : Nat)
    (hperm : shuffled.Perm (List.range m))
    (hsym : ∀ p q, rbf.evaluate2 p q = rbf.evaluate2 q p) :
    ((computeA rbf points shuffled m).1.toMatrix m).det =
      ((computeA rbf points (List.range m) m).1.toMatrix m).det := by
  obtain ⟨e, he⟩ := perm_exists_equiv hperm
  have hsub : (computeA rbf points shuffled m).1.toMatrix m =
      ((computeA rbf points (List.range m) m).1.toMatrix m).submatrix e e := by
    ext i j
    simp only [MatrixXF.toMatrix, Matrix.of_apply, Matrix.submatrix_apply]
    rw [computeA_kernelMatrix rbf points shuffled m hsym
        (fun i hi j hj e => perm_inj hperm i hi j hj e) i.val j.val i.isLt j.isLt,
      computeA_kernelMatrix rbf points (List.range m) m hsym
        (fun i hi j hj e => by rwa [indexAt_range m i hi, indexAt_range m j hj] at e)
        (e i).val (e j).val (e i).isLt (e j).isLt,
      indexAt_range m _ (e i).isLt, indexAt_range m _ (e j).isLt, he i, he j]
  rw [hsub, Matrix.det_submatrix_equiv_self]

end NoTrend
end rbf_direct_solver

/-! ## The reduced matrix as a full product -/

namespace rbf_direct_solver
section FullProduct
variable {K : Type} [Field K]
open Finset

/-- The column `j` of `Q = [(-E) ; I]` is the lift of the `j`-th unit vector. -/
theorem fullQ_coeff_eq_liftQ (me : MatrixXF K) (l m : Nat) (j : Nat) (hj : j < m - l) (c : Nat) :
    (fullQ me l m).coeff c j =
      liftQ l (m - l) me.coeff (fun k => if k = j then 1 else 0) c := by
  unfold fullQ liftQ
  simp only
  split
  · rw [sum_eq_single j]
    · simp
    · intro k _ hk; simp [hk]
    · intro h; exact absurd (mem_range.2 hj) h
  · congr 1
    apply propext
    constructor <;> intro h <;> omega

/-- The full product `Q^T A Q`, entrywise, is the blockwise one. -/
theorem full_qtaq_coeff (a me : MatrixXF K) (l m : Nat) (hc : a.cols = m)
    (hlm : l ≤ m) (i j : Nat) (hi : i < m - l) (hj : j < m - l) :
    (full_qtaq a me l m).coeff i j = blockQtAQ l a.coeff me.coeff i j := by
  have hmn : l + (m - l) = m := by omega
  have e1 : ∀ c, ∑ r in range m, (fullQ me l m).coeff r i * a.coeff r c =
      ∑ k in range l, me.coeff k i * a.coeff k c + a.coeff (l + i) c := by
    intro c
    have := sum_mul_liftQ l (m - l) me.coeff (fun k => if k = i then 1 else 0)
      (fun r => a.coeff r c)
    rw [hmn] at this
    calc ∑ r in range m, (fullQ me l m).coeff r i * a.coeff r c
        = ∑ r in range m, a.coeff r c *
            liftQ l (m - l) me.coeff (fun k => if k = i then 1 else 0) r :=
          sum_congr rfl fun r _ => by rw [fullQ_coeff_eq_liftQ me l m i hi r, mul_comm]
      _ = ∑ t in range (m - l), (∑ k in range l, a.coeff k c * me.coeff k t +
            a.coeff (l + t) c) * (if t = i then 1 else 0) := this
      _ = ∑ k in range l, a.coeff k c * me.coeff k i + a.coeff (l + i) c := by
          rw [sum_eq_single i]
          · simp
          · intro t _ ht; simp [ht]
          · intro h; exact absurd (mem_range.2 hi) h
      _ = ∑ k in range l, me.coeff k i * a.coeff k c + a.coeff (l + i) c := by
          congr 1
          exact sum_congr rfl fun k _ => mul_comm _ _
  have e2 := qt_mul_liftQ_eq l (m - l) a.coeff me.coeff (fun k => if k = j then 1 else 0) i
  rw [hmn] at e2
  have e3 : ∑ t in range (m - l), blockQtAQ l a.coeff me.coeff i t * (if t = j then 1 else 0) =
      blockQtAQ l a.coeff me.coeff i j := by
    rw [sum_eq_single j]
    · simp
    · intro t _ ht; simp [ht]
    · intro h; exact absurd (mem_range.2 hj) h
  rw [← e3, ← e2]
  simp only [full_qtaq, MatrixXF.mul, MatrixXF.transpose, fullQ, hc]
  show ∑ c in range m, (∑ r in range m, (fullQ me l m).coeff r i * a.coeff r c) *
      (fullQ me l m).coeff c j = _
  calc ∑ c in range m, (∑ r in range m, (fullQ me l m).coeff r i * a.coeff r c) *
        (fullQ me l m).coeff c j
      = ∑ c in range m, (∑ k in range l, me.coeff k i * a.coeff k c + a.coeff (l + i) c) *
          liftQ l (m - l) me.coeff (fun k => if k = j then 1 else 0) c :=
        sum_congr rfl fun c _ => by rw [e1 c, fullQ_coeff_eq_liftQ me l m j hj c]
    _ = _ := by
        simp only [add_mul, sum_add_distrib, sum_mul, mul_sum]
        congr 1
        rw [sum_comm]
        exact sum_congr rfl fun k _ => sum_congr rfl fun c _ => by ring

/-- The blockwise reduced matrix is symmetric when `A` is. -/
theorem blockQtAQ_symm (l n : Nat) (A E : Nat → Nat → K)
    (hA : ∀ i < l + n, ∀ j < l + n, A i j = A j i) (i j : Nat) (hi : i < n) (hj : j < n) :
    blockQtAQ l A E i j = blockQtAQ l A E j i := by
  unfold blockQtAQ blockAQ
  have h1 : ∑ k in range l, E k i * (∑ k' in range l, A k k' * E k' j + A k (l + j)) =
      ∑ k in range l, ∑ k' in range l, E k i * A k k' * E k' j +
        ∑ k in range l, E k i * A k (l + j) := by
    rw [← sum_add_distrib]
    refine sum_congr rfl fun k _ => ?_
    rw [mul_add, mul_sum]
    congr 1
    exact sum_congr rfl fun k' _ => by ring
  have h2 : ∑ k in range l, E k j * (∑ k' in range l, A k k' * E k' i + A k (l + i)) =
      ∑ k in range l, ∑ k' in range l, E k j * A k k' * E k' i +
        ∑ k in range l, E k j * A k (l + i) := by
    rw [← sum_add_distrib]
    refine sum_congr rfl fun k _ => ?_
    rw [mul_add, mul_sum]
    congr 1
    exact sum_congr rfl fun k' _ => by ring
  have h3 : ∑ k in range l, ∑ k' in range l, E k j * A k k' * E k' i =
      ∑ k in range l, ∑ k' in range l, E k i * A k k' * E k' j := by
    rw [sum_comm]
    refine sum_congr rfl fun k hk => sum_congr rfl fun k' hk' => ?_
    rw [hA k' (by have := mem_range.1 hk'; omega) k (by have := mem_range.1 hk; omega)]
    ring
  have h4 : ∑ k in range l, A (l + i) k * E k j = ∑ k in range l, E k j * A k (l + i) :=
    sum_congr rfl fun k hk => by
      rw [hA (l + i) (by omega) k (by have := mem_range.1 hk; omega)]; ring
  have h5 : ∑ k in range l, A (l + j) k * E k i = ∑ k in range l, E k i * A k (l + j) :=
    sum_congr rfl fun k hk => by
      rw [hA (l + j) (by omega) k (by have := mem_range.1 hk; omega)]; ring
  rw [h1, h2, h3, h4, h5, hA (l + i) (by omega) (l + j) (by omega)]
  ring

theorem compute_qtaq_size (a me : MatrixXF K) (l m : Nat) :
    (compute_qtaq a me l m).rows = me.cols ∧ (compute_qtaq a me l m).cols = me.cols :=
  ⟨rfl, rfl⟩

theorem compute_qtaq_coeff (a me : MatrixXF K) (l m : Nat) (ha : a.rows = m) (hc : a.cols = m)
    (hr : me.rows = l) (hlm : l ≤ m) (i j : Nat) :
    (compute_qtaq a me l m).coeff i j = blockQtAQ l a.coeff me.coeff i j := by
  have hs : size_t_sub m l = m - l := by simp [size_t_sub, hlm]
  have e : m - (m - l) = l := by omega
  simp only [compute_qtaq, compute_aq, MatrixXF.add, MatrixXF.mul, MatrixXF.topRows,
    MatrixXF.leftCols, MatrixXF.rightCols, MatrixXF.bottomRows, MatrixXF.transpose,
    blockQtAQ, blockAQ, hs, ha, hc, hr, e]

end FullProduct

section SetupQtaq
variable {K : Type} [Field K]

theorem setup_qtaq_eq (B : polynomial_bases K) (s : rbf_direct_solver K)
    (points : List (Vector3F K)) (shuffled : List Nat) (h : 0 ≤ s.poly_degree) :
    (setup B s points shuffled).ldlt_of_qtaq.matrix =
      compute_qtaq (computeA s.rbf points shuffled s.m).1 (setup B s points shuffled).me
        s.l s.m := by
  unfold setup
  rw [if_pos h]
  rfl

theorem computeA_coeff_symm (rbf : rbf_base K) (points : List (Vector3F K))
    (point_idcs : List Nat) (m : Nat) (i j : Nat) (hi : i < m) (hj : j < m) :
    (computeA rbf points point_idcs m).1.coeff i j =
      (computeA rbf points point_idcs m).1.coeff j i := by
  rw [computeA_coeff rbf points point_idcs m i j hi hj,
    computeA_coeff rbf points point_idcs m j i hj hi]
  rcases Nat.lt_trichotomy i j with e | e | e
  · have e1 : i ≠ j := by omega
    have e2 : j ≠ i := by omega
    have e3 : ¬ j < i := by omega
    simp only [e, e1, e2, e3, if_true, if_false]
  · subst e; rfl
  · have e1 : i ≠ j := by omega
    have e2 : j ≠ i := by omega
    have e3 : ¬ i < j := by omega
    simp only [e, e1, e2, e3, if_true, if_false]

/-- The matrix factored by `setup`: its size, its agreement with the full product
`Q^T A Q`, and its symmetry. -/
theorem compute_qtaq_full (a me : MatrixXF K) (l m : Nat) (ha : a.rows = m) (hc : a.cols = m)
    (hr : me.rows = l) (hlm : l ≤ m) :
    (∀ i < m - l, ∀ j < m - l,
      (compute_qtaq a me l m).coeff i j = (full_qtaq a me l m).coeff i j) ∧
    ((∀ i < m, ∀ j < m, a.coeff i j = a.coeff j i) →
      ∀ i < m - l, ∀ j < m - l,
        (compute_qtaq a me l m).coeff i j = (compute_qtaq a me l m).coeff j i) := by
  constructor
  · intro i hi j hj
    rw [compute_qtaq_coeff a me l m ha hc hr hlm, full_qtaq_coeff a me l m hc hlm i j hi hj]
  · intro hs i hi j hj
    rw [compute_qtaq_coeff a me l m ha hc hr hlm, compute_qtaq_coeff a me l m ha hc hr hlm]
    exact blockQtAQ_symm l (m - l) a.coeff me.coeff
      (fun i hi j hj => hs i (by omega) j (by omega)) i j hi hj

end SetupQtaq
end rbf_direct_solver

/-! ## Index ranges -/

namespace rbf_direct_solver
section InRange
variable {K : Type} [Field K]

variable (B : polynomial_bases K) (s : rbf_direct_solver K) (points : List (Vector3F K))
  (shuffled : List Nat)

theorem setup_point_idcs_perm
    (hperm : shuffled.Perm (List.range s.m)) :
    (setup B s points shuffled).point_idcs.Perm (List.range s.m) := by
  by_cases h : 0 ≤ s.poly_degree
  · rw [setup_point_idcs B s points shuffled h]; exact hperm
  · rw [(setup_lu B s points shuffled h).1]

theorem setup_a_top_size :
    0 ≤ s.poly_degree → (setup B s points shuffled).a_top.rows = s.l ∧
      (setup B s points shuffled).a_top.cols = s.m := by
  intro h
  rw [setup_a_top B s points shuffled h]
  exact ⟨rfl, (computeA_size _ _ _ _).2⟩

theorem setup_in_range_of (hlm : s.l < s.m) (hpts : points.length = s.m)
    (hperm : shuffled.Perm (List.range s.m)) : setup_in_range B s points shuffled := by
  have hp := setup_point_idcs_perm B s points shuffled hperm
  obtain ⟨ar, ac⟩ := computeA_size s.rbf points (setup B s points shuffled).point_idcs s.m
  have hs1 : size_t_sub s.m 1 = s.m - 1 := by simp [size_t_sub]; omega
  have hsl : size_t_sub s.m s.l = s.m - s.l := by simp [size_t_sub]; omega
  unfold setup_in_range
  simp only
  refine ⟨perm_length hp, fun i hi => perm_lt hp i hi, fun i hi => ?_, ?_, ?_, ?_, ?_, ?_⟩
  · exact ⟨by rw [perm_length hp]; exact hi, by rw [hpts]; exact perm_lt hp i hi⟩
  · rw [hs1]; omega
  · rw [hsl]; omega
  · intro i hi
    exact ⟨by rw [ar]; exact hi, by rw [ac]; exact hi⟩
  · intro i hi j _ hj
    rw [hs1] at hi
    rw [ar, ac]
    exact ⟨by omega, hj, hj, by omega⟩
  · intro _
    have haq : (compute_aq (computeA s.rbf points (setup B s points shuffled).point_idcs s.m).1
        (setup B s points shuffled).me s.l s.m).rows = s.m := ar
    rw [haq, ar, ac, hsl]
    omega

theorem solve_in_range_of (hlm : s.l < s.m)
    (hperm : shuffled.Perm (List.range s.m)) (values : VectorXF K) (hv : values.size = s.m) :
    solve_in_range B (setup B s points shuffled) values := by
  have hp := setup_point_idcs_perm B s points shuffled hperm
  obtain ⟨fl, fm, fd, -⟩ := setup_frame B s points shuffled
  have hsl : size_t_sub s.m s.l = s.m - s.l := by simp [size_t_sub]; omega
  unfold solve_in_range
  simp only
  rw [fl, fm, fd, permute_values_size, compute_lambda_size, fl, fm, hv, hsl, perm_length hp]
  refine ⟨fun i hi => ⟨hi, hi, perm_lt hp i hi⟩, ?_, ?_, fun i hi => ⟨hi, perm_lt hp i hi⟩⟩
  · intro h
    obtain ⟨tr, tc⟩ := setup_a_top_size B s points shuffled h
    rw [tr, tc, compute_lambda_c_size B _ _ (by rw [fd]; exact h), fl, fm]
    exact ⟨by omega, by omega, by omega, by omega, by omega, fun i hi => by omega,
      fun i hi j hj => ⟨by omega, hi, hj⟩, rfl⟩
  · by_cases h : 0 ≤ s.poly_degree
    · rw [compute_lambda_c_size B _ _ (by rw [fd]; exact h), fl, fm]; omega
    · rw [compute_lambda_c_of_neg B _ (by rw [fd]; exact h), linsolve_size,
        (setup_lu B s points shuffled h).2, (computeA_size _ _ _ _).2]

end InRange
end rbf_direct_solver

/-! ## Exactness for a solution of the reduced system -/

namespace rbf_direct_solver
section Assembled
variable {K : Type} [Field K]
open Finset

variable (B : polynomial_bases K) (s : rbf_direct_solver K) (points : List (Vector3F K))
  (shuffled : List Nat)

end Assembled
end rbf_direct_solver

/-! ## Eigen's LDLT algorithm -/

namespace LDLT
section Algorithm
variable {K : Type} [LinearOrderedField K]
open Finset

theorem index_of_biggest_in_corner_mem (mat : Nat → Nat → K) (k size : Nat) (hk : k < size) :
    k ≤ index_of_biggest_in_corner mat k size ∧ index_of_biggest_in_corner mat k size < size := by
  unfold index_of_biggest_in_corner
  have key := forLoop_invariant (fun i best => k ≤ best ∧ best < i) (k + 1) size
    (fun i best => if |mat best best| < |mat i i| then i else best) k (by omega)
    ⟨le_refl _, by omega⟩ ?_
  · exact ⟨key.1, by have := key.2; omega⟩
  intro i best hi _ hb
  show k ≤ (if |mat best best| < |mat i i| then i else best) ∧
    (if |mat best best| < |mat i i| then i else best) < i + 1
  split
  · exact ⟨by omega, by omega⟩
  · exact ⟨hb.1, by omega⟩

theorem solve_impl_size (d : LDLT K) (b : VectorXF K) : (solve_impl d b).size = d.matrix.cols :=
  rfl

end Algorithm
end LDLT

/-! ## The method `solve` with its preconditions -/

namespace rbf_direct_solver
section CheckedLemmas
variable {K : Type} [LinearOrderedField K]
open Finset

variable (B : polynomial_bases K) (s : rbf_direct_solver K) (points : List (Vector3F K))
  (shuffled : List Nat)

theorem compute_lambda_c_eigen_eq (vp : VectorXF K) (h : 0 ≤ s.poly_degree) :
    compute_lambda_c_eigen B s vp =
      assemble_lambda_c B s vp (s.ldlt_of_qtaq.solve_impl (compute_qtd s vp)) := by
  simp only [compute_lambda_c_eigen, if_pos h, assemble_lambda_c]

theorem setup_qtaq_size (h : 0 ≤ s.poly_degree) :
    (setup B s points shuffled).ldlt_of_qtaq.isInitialized = true ∧
    (setup B s points shuffled).ldlt_of_qtaq.matrix.rows = s.m - s.l ∧
    (setup B s points shuffled).ldlt_of_qtaq.matrix.cols = s.m - s.l := by
  refine ⟨?_, ?_, setup_qtaq_cols B s points shuffled h⟩
  · unfold setup
    rw [if_pos h]
    rfl
  · rw [setup_qtaq_eq B s points shuffled h, (compute_qtaq_size _ _ _ _).1,
      (setup_me_size B s points shuffled h).2]

/-- After the first `setup` with a polynomial term, every assertion of Eigen in `solve`
holds. -/
theorem setup_nullspace_asserts (h : 0 ≤ s.poly_degree) (hc : Constructed B s) :
    nullspace_asserts B (setup B s points shuffled) := by
  obtain ⟨hl, hlm, hpp⟩ := hc
  obtain ⟨fl, fm, fd, -⟩ := setup_frame B s points shuffled
  obtain ⟨mr, mc⟩ := setup_me_size B s points shuffled h
  obtain ⟨qi, qr, qc⟩ := setup_qtaq_size B s points shuffled h
  obtain ⟨tr, tc⟩ := setup_a_top_size B s points shuffled h
  have hsl : size_t_sub s.m s.l = s.m - s.l := by simp [size_t_sub]; omega
  have hpl : (setup B s points shuffled).poly_points.length = s.l := by
    rw [setup_poly_points_fresh B s points shuffled h ⟨hl, hlm, hpp⟩]
    simp
  unfold nullspace_asserts
  rw [fl, fm, fd, mr, mc, qi, qr, qc, tr, tc, hsl, hpl, ← hl]
  exact ⟨by omega, rfl, by omega, rfl, rfl, rfl, rfl, by omega, rfl,
    fun i hi j hj => ⟨hi, hj⟩, rfl, rfl⟩

/-- After `setup`, the reads of the permutation loop are in range for a vector of length
`m`. -/
theorem setup_permute_reads (hperm : shuffled.Perm (List.range s.m)) (values : VectorXF K)
    (hv : values.size = s.m) : permute_reads_in_range (setup B s points shuffled) values := by
  have hp := setup_point_idcs_perm B s points shuffled hperm
  obtain ⟨-, fm, -, -⟩ := setup_frame B s points shuffled
  intro i hi
  rw [fm] at hi
  exact ⟨by rw [perm_length hp]; exact hi, by rw [hv]; exact perm_lt hp i hi⟩

/-- The result of `solve` after the first `setup` with a polynomial term, on a vector of
length `m`. -/
theorem solve_checked_eq (h : 0 ≤ s.poly_degree) (hc : Constructed B s)
    (hperm : shuffled.Perm (List.range s.m)) (values : VectorXF K) (hv : values.size = s.m) :
    solve_checked B (setup B s points shuffled) values =
      Except.ok (unpermute (setup B s points shuffled)
        (assemble_lambda_c B (setup B s points shuffled)
          (permute_values (setup B s points shuffled) values)
          ((setup B s points shuffled).ldlt_of_qtaq.solve_impl
            (compute_qtd (setup B s points shuffled)
              (permute_values (setup B s points shuffled) values))))) := by
  obtain ⟨-, fm, fd, -⟩ := setup_frame B s points shuffled
  have h' : 0 ≤ (setup B s points shuffled).poly_degree := by rw [fd]; exact h
  unfold solve_checked
  rw [if_neg (by rw [fm]; exact not_not.2 hv),
    if_neg (not_not.2 (setup_permute_reads B s points shuffled hperm values hv)),
    if_neg (by rw [if_pos h']; exact not_not.2 (setup_nullspace_asserts B s points shuffled h hc)),
    compute_lambda_c_eigen_eq B _ _ h']

/-- A vector of the wrong length is refused at the entry of `solve`, on every solver. -/
theorem solve_checked_of_length (values : VectorXF K) (hv : values.size ≠ s.m) :
    solve_checked B s values = Except.error solve_failure.length_assertion := by
  unfold solve_checked
  rw [if_pos hv]

/-- On a cleared solver whose permutation is intact, a vector of length `m` passes the
length assertion and the permutation loop, and the call ends in an assertion of Eigen. -/
theorem solve_checked_clear (hperm : s.point_idcs.Perm (List.range s.m)) (values : VectorXF K)
    (hv : values.size = s.m) :
    solve_checked B (clear s) values = Except.error solve_failure.eigen_assertion := by
  have hr : permute_reads_in_range (clear s) values := by
    intro i hi
    exact ⟨by rw [show (clear s).point_idcs = s.point_idcs from rfl, perm_length hperm]; exact hi,
      by rw [hv]; exact perm_lt hperm i hi⟩
  have ha : ¬ (if 0 ≤ (clear s).poly_degree then nullspace_asserts B (clear s)
      else lu_asserts (clear s)) := by
    split
    · intro hn
      have := hn.2.2.2.2.1
      simp [clear, LDLT.empty] at this
    · intro hn
      have := hn.1
      simp [clear, PartialPivLU.empty] at this
  have hv' : values.size = (clear s).m := hv
  unfold solve_checked
  rw [if_neg (not_not.2 hv'), if_neg (not_not.2 hr), if_pos ha]

/-- On a solver that was never set up, a vector of length `m` passes the length assertion,
and the first pass of the permutation loop reads `point_idcs[0]` from the empty vector. -/
theorem solve_checked_init (rbf : rbf_base K) (poly_degree : Int) (n_points : Nat)
    (hn : 0 < n_points) (values : VectorXF K) (hv : values.size = n_points) :
    solve_checked B (init B rbf poly_degree n_points) values =
      Except.error solve_failure.read_out_of_range := by
  have hr : ¬ permute_reads_in_range (init B rbf poly_degree n_points) values := by
    intro h
    have := (h 0 hn).1
    simp [init] at this
  have hv' : values.size = (init B rbf poly_degree n_points).m := hv
  unfold solve_checked
  rw [if_neg (not_not.2 hv'), if_pos hr]

end CheckedLemmas
end rbf_direct_solver

namespace rbf_direct_solver
section CheckedLemmas2
variable {K : Type} [LinearOrderedField K]
open Finset

variable (B : polynomial_bases K) (s : rbf_direct_solver K) (points : List (Vector3F K))
  (shuffled : List Nat)

/-- After `setup`, `LdltSolves` is a statement about the `(m - l)`-by-`(m - l)` system. -/
theorem ldltSolves_setup (h : 0 ≤ s.poly_degree) (values : VectorXF K)
    (hs : LdltSolves (setup B s points shuffled) values) :
    ∀ i < s.m - s.l, ∑ t in range (s.m - s.l),
      (setup B s points shuffled).ldlt_of_qtaq.matrix.coeff i t *
        ((setup B s points shuffled).ldlt_of_qtaq.solve_impl
          (compute_qtd (setup B s points shuffled)
            (permute_values (setup B s points shuffled) values))).coeff t =
      (compute_qtd (setup B s points shuffled)
        (permute_values (setup B s points shuffled) values)).coeff i := by
  obtain ⟨-, qr, qc⟩ := setup_qtaq_size B s points shuffled h
  unfold LdltSolves at hs
  rw [qr, qc] at hs
  exact hs

end CheckedLemmas2
end rbf_direct_solver

/-! ## The null-space path with `l = 0` -/

section Dimension

end Dimension

namespace rbf_direct_solver
section NullspaceZero
variable {K : Type} [LinearOrderedField K]
open Finset

variable (B : polynomial_bases K) (s : rbf_direct_solver K) (points : List (Vector3F K))
  (shuffled : List Nat)

end NullspaceZero
end rbf_direct_solver

/-! ## The two embeddings of `solve` -/

namespace LDLT
section ZeroRhs
variable {K : Type} [LinearOrderedField K]

theorem swap_rows_zero (k p : Nat) : swap_rows (fun _ => (0 : K)) k p = fun _ => 0 := by
  funext i
  unfold swap_rows
  split
  · rfl
  · split <;> rfl

/-- On a right-hand side that is zero, `solve` returns the zero vector. -/
theorem solve_impl_zero_rhs (d : LDLT K) (b : VectorXF K)
    (h : ∀ i < d.matrix.rows, b.coeff i = 0) (i : Nat) : (solve_impl d b).coeff i = 0 := by
  have e : (fun i => if i < d.matrix.rows then b.coeff i else 0) = fun _ => (0 : K) := by
    funext i
    split
    · next hi => exact h i hi
    · rfl
  have l1 : ∀ n (tr : Nat → Nat), forLoop 0 n (fun k (y : Nat → K) => swap_rows y k (tr k))
      (fun _ => 0) = fun _ => 0 := fun n tr =>
    forLoop_invariant (fun _ (y : Nat → K) => y = fun _ => 0) 0 n _ _ (Nat.zero_le _) rfl
      (fun k y _ _ hy => by rw [hy]; exact swap_rows_zero _ _)
  have l2 : ∀ n (F : Nat → (Nat → K) → K), (∀ t, F t (fun _ => 0) = 0) →
      forLoop 0 n (fun t (y : Nat → K) => Function.update y t (F t y)) (fun _ => 0) =
        fun _ => 0 := fun n F hF =>
    forLoop_invariant (fun _ (y : Nat → K) => y = fun _ => 0) 0 n _ _ (Nat.zero_le _) rfl
      (fun k y _ _ hy => by
        rw [hy]
        funext j
        by_cases hj : j = k
        · rw [hj, Function.update_same, hF]
        · rw [Function.update_noteq hj])
  have l3 : ∀ n (g : Nat → Nat) (F : Nat → (Nat → K) → K), (∀ t, F t (fun _ => 0) = 0) →
      forLoop 0 n (fun t (y : Nat → K) => Function.update y (g t) (F t y)) (fun _ => 0) =
        fun _ => 0 := fun n g F hF =>
    forLoop_invariant (fun _ (y : Nat → K) => y = fun _ => 0) 0 n _ _ (Nat.zero_le _) rfl
      (fun k y _ _ hy => by
        rw [hy]
        funext j
        by_cases hj : j = g k
        · rw [hj, Function.update_same, hF]
        · rw [Function.update_noteq hj])
  have l5 : ∀ n (g tr : Nat → Nat), forLoop 0 n
      (fun k (y : Nat → K) => swap_rows y (g k) (tr (g k))) (fun _ => 0) = fun _ => 0 :=
    fun n g tr =>
    forLoop_invariant (fun _ (y : Nat → K) => y = fun _ => 0) 0 n _ _ (Nat.zero_le _) rfl
      (fun k y _ _ hy => by rw [hy]; exact swap_rows_zero _ _)
  unfold solve_impl
  simp only [e]
  rw [l1, l2 _ (fun t y => y t - ∑ j in Finset.range t, (unblocked d.matrix).matrix t j * y j)
    (fun t => by simp),
    l2 _ (fun t y => if 0 < |(unblocked d.matrix).matrix t t| then
      y t / (unblocked d.matrix).matrix t t else 0) (fun t => by simp),
    l3 _ (fun t => d.matrix.rows - 1 - t) (fun t y => y (d.matrix.rows - 1 - t) -
      ∑ j in Finset.Ico (d.matrix.rows - t) d.matrix.rows,
        (unblocked d.matrix).matrix j (d.matrix.rows - 1 - t) * y j) (fun t => by simp),
    l5 _ (fun t => d.matrix.rows - 1 - t)]
  simp

end ZeroRhs
end LDLT

namespace rbf_direct_solver
section Bridge
variable {K : Type} [LinearOrderedField K]
open Finset

variable (B : polynomial_bases K) (s : rbf_direct_solver K) (points : List (Vector3F K))
  (shuffled : List Nat)

/-- The vector `Q gamma` depends on the first `m - l` entries of `gamma` only. -/
theorem lift_gamma_congr (gamma gamma' : VectorXF K) (hlm : s.l ≤ s.m)
    (hcols : s.me.cols = s.m - s.l) (h : ∀ t < s.m - s.l, gamma.coeff t = gamma'.coeff t) :
    lift_gamma s gamma = lift_gamma s gamma' := by
  have hs : size_t_sub s.m s.l = s.m - s.l := by simp [size_t_sub, hlm]
  unfold lift_gamma
  simp only [VectorXF.setSegment, VectorXF.setHead, VectorXF.alloc, MatrixXF.mulVec, hs, hcols]
  congr 1
  funext i
  by_cases h1 : s.l ≤ i ∧ i < s.l + (s.m - s.l)
  · rw [if_pos h1, if_pos h1]
    exact h _ (by omega)
  · rw [if_neg h1, if_neg h1]
    by_cases h2 : i < s.l
    · rw [if_pos h2, if_pos h2]
      exact sum_congr rfl fun t ht => by rw [h t (mem_range.1 ht)]
    · rw [if_neg h2, if_neg h2]

/-- The two embeddings of `solve` return the same vector after the first `setup` with a
polynomial term, when the reduced matrix is invertible and Eigen's LDLT decomposition
solves the reduced system. -/
theorem solve_checked_eq_solve (h : 0 ≤ s.poly_degree) (hc : Constructed B s)
    (hperm : shuffled.Perm (List.range s.m))
    (hdet : ((setup B s points shuffled).ldlt_of_qtaq.matrix.toMatrix (s.m - s.l)).det ≠ 0)
    (values : VectorXF K) (hv : values.size = s.m)
    (hs : LdltSolves (setup B s points shuffled) values) :
    ∃ out, solve_checked B (setup B s points shuffled) values = Except.ok out ∧
      solve B (setup B s points shuffled) values = some out := by
  obtain ⟨fl, fm, fd, -⟩ := setup_frame B s points shuffled
  obtain ⟨-, mc⟩ := setup_me_size B s points shuffled h
  have hcols := setup_qtaq_cols B s points shuffled h
  have h' : 0 ≤ (setup B s points shuffled).poly_degree := by rw [fd]; exact h
  refine ⟨_, solve_checked_eq B s points shuffled h hc hperm values hv, ?_⟩
  rw [solve_eq B _ values (by rw [fm]; exact hv)]
  congr 2
  have hg : ∀ t < s.m - s.l,
      ((setup B s points shuffled).ldlt_of_qtaq.solve
        (compute_qtd (setup B s points shuffled)
          (permute_values (setup B s points shuffled) values))).coeff t =
      ((setup B s points shuffled).ldlt_of_qtaq.solve_impl
        (compute_qtd (setup B s points shuffled)
          (permute_values (setup B s points shuffled) values))).coeff t := by
    intro t ht
    have key := toMatrix_inj _ _ hdet (fun t =>
      ((setup B s points shuffled).ldlt_of_qtaq.solve
        (compute_qtd (setup B s points shuffled)
          (permute_values (setup B s points shuffled) values))).coeff t -
      ((setup B s points shuffled).ldlt_of_qtaq.solve_impl
        (compute_qtd (setup B s points shuffled)
          (permute_values (setup B s points shuffled) values))).coeff t) ?_ t ht
    · exact sub_eq_zero.1 key
    · intro i hi
      have sp := linsolve_spec (setup B s points shuffled).ldlt_of_qtaq.matrix
        (compute_qtd (setup B s points shuffled)
          (permute_values (setup B s points shuffled) values))
        (by rw [hcols]; exact hdet) i (by rw [hcols]; exact hi)
      rw [hcols] at sp
      have se := ldltSolves_setup B s points shuffled h values hs i hi
      simp only [mul_sub, sum_sub_distrib]
      rw [se]
      exact sub_eq_zero.2 sp
  have hl : lift_gamma (setup B s points shuffled)
      ((setup B s points shuffled).ldlt_of_qtaq.solve
        (compute_qtd (setup B s points shuffled)
          (permute_values (setup B s points shuffled) values))) =
      lift_gamma (setup B s points shuffled)
        ((setup B s points shuffled).ldlt_of_qtaq.solve_impl
          (compute_qtd (setup B s points shuffled)
            (permute_values (setup B s points shuffled) values))) :=
    lift_gamma_congr _ _ _ (by rw [fl, fm]; exact hc.2.1.le) (by rw [mc, fl, fm])
      (by rw [fl, fm]; exact hg)
  simp only [compute_lambda_c, if_pos h', compute_lambda, assemble_lambda_c, hl]

/-- On values sampled from a polynomial the reduced right-hand side is zero, and Eigen's
LDLT decomposition solves the reduced system with `gamma = 0`. -/
theorem ldltSolves_of_polynomial (h : 0 ≤ s.poly_degree) (hc : Constructed B s)
    (hperm : shuffled.Perm (List.range s.m))
    (hL : IsLagrangeBasis B s.poly_degree (setup B s points shuffled).poly_points)
    (values : VectorXF K) (hv : values.size = s.m) (c0 : Nat → K)
    (hd : ∀ a < s.m, values.coeff a =
      ∑ k in range s.l, monomialMatrix B s.poly_degree points a k * c0 k) :
    LdltSolves (setup B s points shuffled) values := by
  obtain ⟨hl, hlm, hpp⟩ := hc
  obtain ⟨fl, fm, fd, -⟩ := setup_frame B s points shuffled
  obtain ⟨mr, -⟩ := setup_me_size B s points shuffled h
  obtain ⟨-, qr, qc⟩ := setup_qtaq_size B s points shuffled h
  have hidx := setup_point_idcs B s points shuffled h
  have h' : 0 ≤ (setup B s points shuffled).poly_degree := by rw [fd]; exact h
  have hvp : ∀ i < s.m, (permute_values (setup B s points shuffled) values).coeff i =
      ∑ k in range s.l, B.monomial s.poly_degree k (refPoint points shuffled i) * c0 k := by
    intro i hi
    rw [permute_values_coeff, fm, if_pos hi, hidx, hd _ (perm_lt hperm i hi)]
    rfl
  have hq : ∀ i < s.m - s.l, (compute_qtd (setup B s points shuffled)
      (permute_values (setup B s points shuffled) values)).coeff i = 0 := by
    intro i hi
    rw [compute_qtd_coeff _ _ h' (by rw [fl, fm]; omega) (by rw [mr, fl, hl])
      (by rw [permute_values_size, fm]; exact hv), fl, blockQtd, hvp (s.l + i) (by omega)]
    rw [← qt_mul_P_eq_zero s.l (s.m - s.l) (setup B s points shuffled).me.coeff
      (fun r k => B.monomial s.poly_degree k (refPoint points shuffled r)) c0 i hi
      (fun k hk j hj => setup_me_monomial B s points shuffled h ⟨hl, hlm, hpp⟩ hL k hk j hj)]
    congr 1
    exact sum_congr rfl fun r hr => by rw [hvp r (by have := mem_range.1 hr; omega)]
  unfold LdltSolves
  rw [qr, qc]
  intro i hi
  rw [hq i hi]
  refine sum_eq_zero fun t _ => ?_
  rw [LDLT.solve_impl_zero_rhs _ _ (by rw [qr]; exact hq), mul_zero]

end Bridge
end rbf_direct_solver

end polatory

/-! ## The claims -/

namespace polatory
namespace rbf_direct_solver

open Finset

section Instance

theorem example2_constructed : Constructed example2.bases example2.solver :=
  ⟨rfl, by decide, rfl⟩

theorem example2_lagrange (shuffled : List Nat) :
    IsLagrangeBasis example2.bases example2.solver.poly_degree
      (setup example2.bases example2.solver example2.points shuffled).poly_points := by
  have e : example2.bases.dimension example2.solver.poly_degree = 1 := rfl
  refine ⟨⟨fun _ _ => 1, ?_⟩, ?_⟩
  · intro i _ x
    rw [e]
    simp [example2.bases]
  · intro i hi j hj
    rw [e] at hi hj
    have hi0 : i = 0 := by omega
    have hj0 : j = 0 := by omega
    subst hi0 hj0
    simp [example2.bases]

theorem example2_det :
    ((setup example2.bases example2.solver example2.points [1, 0]).ldlt_of_qtaq.matrix.toMatrix
      (example2.solver.m - example2.solver.l)).det ≠ 0 := by
  rw [show example2.solver.m - example2.solver.l = 1 from rfl, Matrix.det_fin_one]
  simp only [MatrixXF.toMatrix, Matrix.of_apply]
  rw [setup_qtaq_coeff example2.bases example2.solver example2.points [1, 0] (by decide) rfl
    (by decide) (by decide)]
  simp [blockQtAQ, blockAQ, example2.solver, init, show dimension 0 = 1 from rfl,
    Finset.sum_range_succ, setup_me_coeff, computeA_coeff, kernelAt, refPoint, example2.bases,
    example2.kernel, example2.points, pointAt, indexAt, example2.dist2]
  norm_num

end Instance

section Claims

variable {K : Type} [Field K]

/-- C2. Polynomial reproduction: with `poly_degree >= 0`, unisolvent reference points and an
invertible factored matrix `Q^T A Q`, if the value vector is `d = P0 c0` for a coefficient
vector `c0` (an exact polynomial of degree at most `poly_degree` sampled at the points),
then `solve` returns all `m` RBF weights equal to zero and the polynomial coefficients
equal to `c0`. -/
theorem solve_polynomial_reproduction (B : polynomial_bases K) (s : rbf_direct_solver K)
    (points : List (Vector3F K)) (shuffled : List Nat) (values : VectorXF K) (c0 : Nat → K)
    (hc : Constructed B s) (_hpts : points.length = s.m)
    (hperm : shuffled.Perm (List.range s.m)) (hdeg : 0 ≤ s.poly_degree)
    (hL : IsLagrangeBasis B s.poly_degree (setup B s points shuffled).poly_points)
    (hdet : ((setup B s points shuffled).ldlt_of_qtaq.matrix.toMatrix (s.m - s.l)).det ≠ 0)
    (hv : values.size = s.m)
    (hd : ∀ a < s.m, values.coeff a =
      ∑ k in range s.l, monomialMatrix B s.poly_degree points a k * c0 k) :
    ∃ out, solve B (setup B s points shuffled) values = some out ∧
      (∀ a < s.m, out.coeff a = 0) ∧ (∀ k < s.l, out.coeff (s.m + k) = c0 k) := by
  obtain ⟨-, fm, -, -⟩ := setup_frame B s points shuffled
  have hidx := setup_point_idcs B s points shuffled hdeg
  have hperm' : (setup B s points shuffled).point_idcs.Perm
      (List.range (setup B s points shuffled).m) := by rw [hidx, fm]; exact hperm
  refine ⟨_, solve_eq B (setup B s points shuffled) values (by rw [fm]; exact hv), ?_⟩
  obtain ⟨u1, u2⟩ := unpermute_entries (setup B s points shuffled) hperm'
    (compute_lambda_c B (setup B s points shuffled)
      (permute_values (setup B s points shuffled) values))
  rw [hidx, fm] at u1
  rw [fm] at u2
  obtain ⟨r1, r2⟩ := compute_lambda_c_reproduces B s points shuffled hdeg hc hL hdet
    (permute_values (setup B s points shuffled) values) (by rw [permute_values_size, hv]) c0
    (fun i hi => by
      rw [permute_values_coeff, fm, if_pos hi, hidx, hd _ (perm_lt hperm i hi)]
      rfl)
  constructor
  · intro a ha
    obtain ⟨i, hi, rfl⟩ := perm_surj hperm a ha
    rw [u1 i hi, r1 i hi]
  · intro k hk
    rw [u2 (s.m + k) (by omega), r2 k hk]

/-- Witness of C2: two points, values sampled from the constant polynomial `5`. -/
theorem solve_polynomial_reproduction_witness :
    ∃ out, solve example2.bases
        (setup example2.bases example2.solver example2.points [1, 0])
        example2.constant_values = some out ∧
      (∀ a < example2.solver.m, out.coeff a = 0) ∧
      (∀ k < example2.solver.l, out.coeff (example2.solver.m + k) = (fun _ => (5 : ℚ)) k) :=
  solve_polynomial_reproduction example2.bases example2.solver example2.points [1, 0]
    example2.constant_values (fun _ => 5) example2_constructed rfl (by decide) (by decide)
    (example2_lagrange _) example2_det rfl
    (fun a _ => by
      simp [example2.constant_values, monomialMatrix, example2.bases, example2.solver, init,
        show dimension 0 = 1 from rfl])

/-- C3. Polynomial orthogonality of the weights: with `poly_degree >= 0` and `-E` built by
`setup` from a Lagrange basis on the `l` reference points, for every `gamma` the lifted
vector `Q gamma = [(-E) gamma ; gamma]` computed by `solve` satisfies `P^T (Q gamma) = 0`
for the monomial matrix `P` at the permuted points; and the RBF weights returned by `solve`
are orthogonal to every polynomial of degree at most `poly_degree` sampled at the points. -/
theorem weights_orthogonal_to_polynomials (B : polynomial_bases K) (s : rbf_direct_solver K)
    (points : List (Vector3F K)) (shuffled : List Nat)
    (hc : Constructed B s) (_hpts : points.length = s.m)
    (hperm : shuffled.Perm (List.range s.m)) (hdeg : 0 ≤ s.poly_degree)
    (hL : IsLagrangeBasis B s.poly_degree (setup B s points shuffled).poly_points) :
    (∀ (gamma : VectorXF K), ∀ k < s.l,
      ∑ j in range s.m, B.monomial s.poly_degree k (refPoint points shuffled j) *
        (lift_gamma (setup B s points shuffled) gamma).coeff j = 0) ∧
    (∀ values : VectorXF K, values.size = s.m →
      ∃ out, solve B (setup B s points shuffled) values = some out ∧
        ∀ q : Nat → K,
          ∑ a in range s.m,
            (∑ k in range s.l, monomialMatrix B s.poly_degree points a k * q k) * out.coeff a
            = 0) := by
  refine ⟨fun gamma k hk => lift_gamma_orthogonal B s points shuffled hdeg hc hL gamma k hk, ?_⟩
  intro values hv
  have fm := (setup_frame B s points shuffled).2.1
  refine ⟨_, solve_eq B (setup B s points shuffled) values (by rw [fm]; exact hv), ?_⟩
  intro q
  simp only [sum_mul]
  rw [sum_comm]
  refine sum_eq_zero fun k hk => ?_
  have e := unpermute_orthogonal B s points shuffled hdeg hc hperm hL
    (permute_values (setup B s points shuffled) values) k (mem_range.1 hk)
  calc ∑ a in range s.m, monomialMatrix B s.poly_degree points a k * q k *
        (unpermute (setup B s points shuffled) (compute_lambda_c B (setup B s points shuffled)
          (permute_values (setup B s points shuffled) values))).coeff a
      = q k * ∑ a in range s.m, monomialMatrix B s.poly_degree points a k *
        (unpermute (setup B s points shuffled) (compute_lambda_c B (setup B s points shuffled)
          (permute_values (setup B s points shuffled) values))).coeff a := by
        rw [mul_sum]
        exact sum_congr rfl fun a _ => by ring
    _ = 0 := by rw [e, mul_zero]

/-- Witness of C3: two points, a constant polynomial term, the permutation `[1, 0]`. -/
theorem weights_orthogonal_to_polynomials_witness :
    (∀ (gamma : VectorXF ℚ), ∀ k < example2.solver.l,
      ∑ j in range example2.solver.m,
        example2.bases.monomial example2.solver.poly_degree k
            (refPoint example2.points [1, 0] j) *
          (lift_gamma (setup example2.bases example2.solver example2.points [1, 0])
            gamma).coeff j = 0) ∧
    (∀ values : VectorXF ℚ, values.size = example2.solver.m →
      ∃ out, solve example2.bases
          (setup example2.bases example2.solver example2.points [1, 0]) values = some out ∧
        ∀ q : Nat → ℚ,
          ∑ a in range example2.solver.m,
            (∑ k in range example2.solver.l,
              monomialMatrix example2.bases example2.solver.poly_degree example2.points a k *
                q k) * out.coeff a = 0) :=
  weights_orthogonal_to_polynomials example2.bases example2.solver example2.points [1, 0]
    example2_constructed rfl (by decide) (by decide) (example2_lagrange _)

/-- C4. Permutation round-trip: for every permutation held in `point_idcs` and every vector
`v` of length `m`, permuting `v` as `solve` does on input and then un-permuting as `solve`
does on output gives back `v`; and un-permuting places the entry computed for the internal
index `i` at the output position `point_idcs[i]`. -/
theorem permutation_round_trip (s : rbf_direct_solver K)
    (hperm : s.point_idcs.Perm (List.range s.m)) :
    (∀ v : VectorXF K, v.size = s.m →
      (unpermute s (permute_values s v)).size = v.size ∧
      ∀ k < s.m, (unpermute s (permute_values s v)).coeff k = v.coeff k) ∧
    (∀ (lambda_c : VectorXF K), ∀ i < s.m,
      (unpermute s lambda_c).coeff (indexAt s.point_idcs i) = lambda_c.coeff i) := by
  constructor
  · intro v _
    refine ⟨by rw [unpermute_size, permute_values_size], ?_⟩
    intro k hk
    obtain ⟨i, hi, rfl⟩ := perm_surj hperm k hk
    rw [(unpermute_entries s hperm _).1 i hi, permute_values_coeff, if_pos hi]
  · intro lambda_c i hi
    exact (unpermute_entries s hperm lambda_c).1 i hi

/-- Witness of C4: the solver of two points after `setup` stored the permutation `[1, 0]`. -/
theorem permutation_round_trip_witness :
    (∀ v : VectorXF ℚ,
      v.size = (setup example2.bases example2.solver example2.points [1, 0]).m →
      (unpermute (setup example2.bases example2.solver example2.points [1, 0])
        (permute_values (setup example2.bases example2.solver example2.points [1, 0]) v)).size
        = v.size ∧
      ∀ k < (setup example2.bases example2.solver example2.points [1, 0]).m,
        (unpermute (setup example2.bases example2.solver example2.points [1, 0])
          (permute_values (setup example2.bases example2.solver example2.points [1, 0])
            v)).coeff k = v.coeff k) ∧
    (∀ (lambda_c : VectorXF ℚ),
      ∀ i < (setup example2.bases example2.solver example2.points [1, 0]).m,
        (unpermute (setup example2.bases example2.solver example2.points [1, 0])
          lambda_c).coeff
          (indexAt (setup example2.bases example2.solver example2.points [1, 0]).point_idcs i)
          = lambda_c.coeff i) :=
  permutation_round_trip (setup example2.bases example2.solver example2.points [1, 0])
    (by decide)

/-- C8. The system matrix `A` built by `setup` ("Compute A") is exactly symmetric for every
kernel, point set and index vector, even for a kernel whose two-point evaluation is not
symmetric; every diagonal entry is `kernel.evaluate(0) + nugget`; for `i < j` the entry
`A[i,j]` is the kernel evaluated between the points `point_idcs[i]` and `point_idcs[j]`;
and the kernel is evaluated exactly once per unordered pair: the calls are the pairs
`(i, j)` with `i < j < m`, each made once. -/
theorem computeA_symmetric (rbf : rbf_base K) (points : List (Vector3F K))
    (point_idcs : List Nat) (m : Nat) :
    (∀ i < m, ∀ j < m, (computeA rbf points point_idcs m).1.coeff i j =
      (computeA rbf points point_idcs m).1.coeff j i) ∧
    (∀ i < m, (computeA rbf points point_idcs m).1.coeff i i = rbf.evaluate 0 + rbf.nugget) ∧
    (∀ i j, i < j → j < m → (computeA rbf points point_idcs m).1.coeff i j =
      rbf.evaluate2 (pointAt points (indexAt point_idcs i))
        (pointAt points (indexAt point_idcs j))) ∧
    (computeA rbf points point_idcs m).2.Nodup ∧
    (∀ i j, (i, j) ∈ (computeA rbf points point_idcs m).2 ↔ i < j ∧ j < m) := by
  rcases Nat.eq_zero_or_pos m with h | h
  · subst h
    rw [computeA_zero]
    refine ⟨fun i hi => absurd hi (Nat.not_lt_zero i), fun i hi => absurd hi (Nat.not_lt_zero i),
      fun i j _ hj => absurd hj (Nat.not_lt_zero j), List.nodup_nil, fun i j => ?_⟩
    simp
  · obtain ⟨-, -, h3, h4, h5, h6⟩ := computeA_inv rbf points point_idcs m h
    refine ⟨?_, h3, ?_, h5, ?_⟩
    · intro i hi j hj
      rcases Nat.lt_trichotomy i j with e | e | e
      · rw [(h4 i j e hj (by omega)).1, (h4 i j e hj (by omega)).2]
      · rw [e]
      · rw [(h4 j i e hi (by omega)).1, (h4 j i e hi (by omega)).2]
    · intro i j hij hj
      exact (h4 i j hij hj (by omega)).1
    · intro i j
      rw [h6 (i, j)]
      constructor
      · rintro ⟨a1, a2, -⟩; exact ⟨a1, a2⟩
      · rintro ⟨a1, a2⟩; exact ⟨a1, a2, by omega⟩

/-- C10, at the failing input: a second call of `setup` on the two-point solver (directly,
or after `clear`) leaves two stored reference points although `l = 1`, and the first of
them is the reference point of the first call, not `points[point_idcs[0]]`. -/
theorem setup_twice_poly_points :
    (setup example2.bases (setup example2.bases example2.solver example2.points [1, 0])
      example2.points [0, 1]).poly_points = [(1, 0, 0), (0, 0, 0)] ∧
    (setup example2.bases (setup example2.bases example2.solver example2.points [1, 0])
      example2.points [0, 1]).l = 1 ∧
    (setup example2.bases (setup example2.bases example2.solver example2.points [1, 0])
      example2.points [0, 1]).point_idcs = [0, 1] ∧
    (setup example2.bases (clear (setup example2.bases example2.solver example2.points [1, 0]))
      example2.points [0, 1]).poly_points = [(1, 0, 0), (0, 0, 0)] ∧
    pointAt (setup example2.bases (setup example2.bases example2.solver example2.points [1, 0])
      example2.points [0, 1]).poly_points 0 ≠ pointAt example2.points 0 := by
  refine ⟨?_, rfl, rfl, ?_, ?_⟩
  · rw [setup_poly_points _ _ _ _ (by decide), setup_poly_points _ _ _ _ (by decide)]
    rfl
  · rw [setup_poly_points _ _ _ _ (by decide)]
    show (setup example2.bases example2.solver example2.points [1, 0]).poly_points ++ _ = _
    rw [setup_poly_points _ _ _ _ (by decide)]
    rfl
  · rw [setup_poly_points _ _ _ _ (by decide), setup_poly_points _ _ _ _ (by decide)]
    simp [example2.solver, init, pointAt, refPoint, indexAt, example2.points,
      example2.bases, show dimension 0 = 1 from rfl]

end Claims

section Claims2

variable {K : Type} [Field K]

open Finset

/-- C11. Constructing a solver fails exactly when the number of points `m` does not
strictly exceed `l = dimension(poly_degree)`, and succeeds otherwise: the constructor taking
a point count then returns the solver with its members initialised, the constructor taking
the point set returns that solver after `setup`. In the latter the check comes before
`setup`: when it fails no solver exists and no kernel evaluation has been made, so no
matrix is built or factored. -/
theorem constructor_precondition (B : polynomial_bases K) (rbf : rbf_base K)
    (poly_degree : Int) (n_points : Nat) (points : List (Vector3F K)) (shuffled : List Nat) :
    (mk_n_points B rbf poly_degree n_points = none ↔ n_points ≤ B.dimension poly_degree) ∧
    (mk_n_points B rbf poly_degree n_points = some (init B rbf poly_degree n_points) ↔
      B.dimension poly_degree < n_points) ∧
    (mk_points B rbf poly_degree points shuffled = none ↔
      points.length ≤ B.dimension poly_degree) ∧
    (mk_points B rbf poly_degree points shuffled =
        some (setup B (init B rbf poly_degree points.length) points shuffled) ↔
      B.dimension poly_degree < points.length) ∧
    (points.length ≤ B.dimension poly_degree →
      mk_points_kernel_calls B rbf poly_degree points shuffled = []) := by
  refine ⟨?_, ?_, ?_, ?_, ?_⟩
  · simp only [mk_n_points, init]
    split <;> simp <;> omega
  · simp only [mk_n_points, init]
    split <;> simp <;> omega
  · simp only [mk_points, init]
    split <;> simp <;> omega
  · simp only [mk_points, init]
    split <;> simp <;> omega
  · intro h
    simp only [mk_points_kernel_calls, init]
    rw [if_neg (by omega)]

/-- C14. `clear` releases all factorization state: afterwards `a_top` and `-E` (`me`) are
zero-size matrices and both stored factorizations (the LDLT of `Q^T A Q` and the LU of
`A`) are the empty default; the configuration fields (kernel, `poly_degree`, `l`, `m`)
are unchanged. -/
theorem clear_releases_factorization (s : rbf_direct_solver K) :
    ((clear s).a_top = MatrixXF.empty ∧ (clear s).a_top.rows = 0 ∧ (clear s).a_top.cols = 0) ∧
    ((clear s).me = MatrixXF.empty ∧ (clear s).me.rows = 0 ∧ (clear s).me.cols = 0) ∧
    ((clear s).ldlt_of_qtaq = LDLT.empty ∧ (clear s).ldlt_of_qtaq.isInitialized = false) ∧
    ((clear s).lu_of_a = PartialPivLU.empty ∧ (clear s).lu_of_a.isInitialized = false) ∧
    (clear s).rbf = s.rbf ∧ (clear s).poly_degree = s.poly_degree ∧
    (clear s).l = s.l ∧ (clear s).m = s.m :=
  ⟨⟨rfl, rfl, rfl⟩, ⟨rfl, rfl, rfl⟩, ⟨rfl, rfl⟩, ⟨rfl, rfl⟩, rfl, rfl, rfl, rfl⟩

/-- C15. For `poly_degree >= 0`, the matrix that `setup` factors, computed blockwise as
`AQ = A[:, :l] (-E) + A[:, l:]` and then `(-E)^T AQ[:l, :] + AQ[l:, :]`, has size
`(m - l)`-by-`(m - l)`, equals the full product `Q^T A Q` for the `m`-by-`(m - l)` matrix
`Q = [(-E) ; I]`, and is symmetric; the blockwise computation equals the full product for
every `m`-by-`m` matrix in place of `A`, and is symmetric whenever that matrix is. -/
theorem qtaq_blockwise_is_full_product (B : polynomial_bases K) (s : rbf_direct_solver K)
    (points : List (Vector3F K)) (shuffled : List Nat) (hdeg : 0 ≤ s.poly_degree)
    (hl : s.l = B.dimension s.poly_degree) (hlm : s.l < s.m) :
    (setup B s points shuffled).ldlt_of_qtaq.matrix =
      compute_qtaq (computeA s.rbf points shuffled s.m).1 (setup B s points shuffled).me
        s.l s.m ∧
    (setup B s points shuffled).ldlt_of_qtaq.matrix.rows = s.m - s.l ∧
    (setup B s points shuffled).ldlt_of_qtaq.matrix.cols = s.m - s.l ∧
    (∀ i < s.m - s.l, ∀ j < s.m - s.l,
      (setup B s points shuffled).ldlt_of_qtaq.matrix.coeff i j =
        (full_qtaq (computeA s.rbf points shuffled s.m).1 (setup B s points shuffled).me
          s.l s.m).coeff i j) ∧
    (∀ i < s.m - s.l, ∀ j < s.m - s.l,
      (setup B s points shuffled).ldlt_of_qtaq.matrix.coeff i j =
        (setup B s points shuffled).ldlt_of_qtaq.matrix.coeff j i) ∧
    (∀ a : MatrixXF K, a.rows = s.m → a.cols = s.m →
      (∀ i < s.m - s.l, ∀ j < s.m - s.l,
        (compute_qtaq a (setup B s points shuffled).me s.l s.m).coeff i j =
          (full_qtaq a (setup B s points shuffled).me s.l s.m).coeff i j) ∧
      ((∀ i < s.m, ∀ j < s.m, a.coeff i j = a.coeff j i) →
        ∀ i < s.m - s.l, ∀ j < s.m - s.l,
          (compute_qtaq a (setup B s points shuffled).me s.l s.m).coeff i j =
            (compute_qtaq a (setup B s points shuffled).me s.l s.m).coeff j i)) := by
  obtain ⟨mr, mc⟩ := setup_me_size B s points shuffled hdeg
  obtain ⟨ar, ac⟩ := computeA_size s.rbf points shuffled s.m
  have hr : (setup B s points shuffled).me.rows = s.l := by rw [mr, hl]
  have he := setup_qtaq_eq B s points shuffled hdeg
  obtain ⟨f1, f2⟩ := compute_qtaq_full (computeA s.rbf points shuffled s.m).1
    (setup B s points shuffled).me s.l s.m ar ac hr (by omega)
  refine ⟨he, ?_, ?_, ?_, ?_, ?_⟩
  · rw [he, (compute_qtaq_size _ _ _ _).1, mc]
  · rw [he, (compute_qtaq_size _ _ _ _).2, mc]
  · rw [he]; exact f1
  · rw [he]
    exact f2 (fun i hi j hj => computeA_coeff_symm s.rbf points shuffled s.m i j hi hj)
  · intro a ha hc
    exact compute_qtaq_full a (setup B s points shuffled).me s.l s.m ha hc hr (by omega)

/-- Witness of C15: the two-point solver with the permutation `[1, 0]`; the factored
matrix is 1-by-1 and equals the full product. -/
theorem qtaq_blockwise_is_full_product_witness :
    (setup example2.bases example2.solver example2.points [1, 0]).ldlt_of_qtaq.matrix.rows
      = example2.solver.m - example2.solver.l ∧
    (setup example2.bases example2.solver example2.points [1, 0]).ldlt_of_qtaq.matrix.cols
      = example2.solver.m - example2.solver.l ∧
    (∀ i < example2.solver.m - example2.solver.l, ∀ j < example2.solver.m - example2.solver.l,
      (setup example2.bases example2.solver example2.points [1, 0]).ldlt_of_qtaq.matrix.coeff
          i j =
        (full_qtaq (computeA example2.solver.rbf example2.points [1, 0] example2.solver.m).1
          (setup example2.bases example2.solver example2.points [1, 0]).me
          example2.solver.l example2.solver.m).coeff i j) :=
  ⟨(qtaq_blockwise_is_full_product example2.bases example2.solver example2.points [1, 0]
      (by decide) rfl (by decide)).2.1,
    (qtaq_blockwise_is_full_product example2.bases example2.solver example2.points [1, 0]
      (by decide) rfl (by decide)).2.2.1,
    (qtaq_blockwise_is_full_product example2.bases example2.solver example2.points [1, 0]
      (by decide) rfl (by decide)).2.2.2.1⟩

/-- C17, as the code has it. Under the constructor precondition `m > l`, for a point set of
exactly `m` points (which `setup` does not check) and after `setup` stored a permutation of
`0 .. m - 1`, every index used by `setup` and by `solve` on a vector of length `m` is in
range: `point_idcs` has length `m` with all entries below `m`, the reads
`points[point_idcs[i]]` are inside the point set, the loop bound `m - 1` and the block size
`m - l` do not wrap around, the block sizes `l` and `m - l` never exceed the matrix or
vector they slice, and the writes `lambda_c(point_idcs[i])` stay inside the first `m`
entries of a vector of length `m + l`. -/
theorem indices_in_range (B : polynomial_bases K) (s : rbf_direct_solver K)
    (points : List (Vector3F K)) (shuffled : List Nat) (values : VectorXF K)
    (hlm : s.l < s.m) (hpts : points.length = s.m)
    (hperm : shuffled.Perm (List.range s.m)) (hv : values.size = s.m) :
    setup_in_range B s points shuffled ∧
    solve_in_range B (setup B s points shuffled) values :=
  ⟨setup_in_range_of B s points shuffled hlm hpts hperm,
    solve_in_range_of B s points shuffled hlm hperm values hv⟩

/-- Witness of C17 as amended: the five-point, degree-0 scenario. -/
theorem indices_in_range_witness :
    setup_in_range example2.bases example5.solver example5.points [3, 1, 4, 0, 2] ∧
    solve_in_range example2.bases
      (setup example2.bases example5.solver example5.points [3, 1, 4, 0, 2])
      example5.values :=
  indices_in_range example2.bases example5.solver example5.points [3, 1, 4, 0, 2]
    example5.values (by decide) rfl (by decide) rfl

/-- C17, as stated, fails: the constructor taking the number of points accepts `m = 2` for
degree 0 (`l = 1`), and `setup` called with a set of one point and the permutation `[1, 0]`
reads `points[point_idcs[0]] = points[1]`, past the end of the point set. -/
theorem indices_in_range_counterexample :
    mk_n_points example2.bases example2.kernel 0 2 = some example2.solver ∧
    example2.solver.l < example2.solver.m ∧
    [1, 0].Perm (List.range example2.solver.m) ∧
    ¬ setup_in_range example2.bases example2.solver [((0, 0, 0) : Vector3F ℚ)] [1, 0] := by
  refine ⟨rfl, by decide, by decide, ?_⟩
  intro h
  unfold setup_in_range at h
  have h3 := (h.2.2.1 0 (by decide)).2
  rw [setup_point_idcs _ _ _ _ (by decide)] at h3
  simp [indexAt] at h3

end Claims2

section ClaimsChecked

variable {K : Type} [LinearOrderedField K]

/-- C13, as the code has it. `solve` has no check of the state of the solver: its only check
is the length assertion at its entry. On a solver that was set up and then cleared, and
on a solver that was never set up, no call returns a result, but only a vector whose
length differs from `m` is refused at the entry. A vector of the correct length `m` passes
the assertion; on the cleared solver the permutation loop runs and the call ends in an
assertion of Eigen on the emptied matrices; on the solver never set up the permutation
loop reads `point_idcs[0]` from the empty vector. -/
theorem solve_without_state_guard (B : polynomial_bases K) (s : rbf_direct_solver K)
    (points : List (Vector3F K)) (shuffled : List Nat) (values : VectorXF K)
    (rbf : rbf_base K) (poly_degree : Int) (n_points : Nat)
    (hperm : shuffled.Perm (List.range s.m)) (hn : 0 < n_points) :
    (values.size ≠ s.m →
      solve_checked B (clear (setup B s points shuffled)) values =
        Except.error solve_failure.length_assertion) ∧
    (values.size = s.m →
      solve_checked B (clear (setup B s points shuffled)) values =
        Except.error solve_failure.eigen_assertion) ∧
    (values.size ≠ n_points →
      solve_checked B (init B rbf poly_degree n_points) values =
        Except.error solve_failure.length_assertion) ∧
    (values.size = n_points →
      solve_checked B (init B rbf poly_degree n_points) values =
        Except.error solve_failure.read_out_of_range) ∧
    (∀ out, solve_checked B (clear (setup B s points shuffled)) values ≠ Except.ok out) ∧
    (∀ out, solve_checked B (init B rbf poly_degree n_points) values ≠ Except.ok out) := by
  obtain ⟨-, fm, -, -⟩ := setup_frame B s points shuffled
  have hp : (setup B s points shuffled).point_idcs.Perm
      (List.range (setup B s points shuffled).m) := by
    rw [fm]
    exact setup_point_idcs_perm B s points shuffled hperm
  have c1 : values.size ≠ s.m →
      solve_checked B (clear (setup B s points shuffled)) values =
        Except.error solve_failure.length_assertion := fun h =>
    solve_checked_of_length B _ values (by
      rw [show (clear (setup B s points shuffled)).m = (setup B s points shuffled).m from rfl, fm]
      exact h)
  have c2 : values.size = s.m →
      solve_checked B (clear (setup B s points shuffled)) values =
        Except.error solve_failure.eigen_assertion := fun h =>
    solve_checked_clear B _ hp values (by rw [fm]; exact h)
  have c3 : values.size ≠ n_points →
      solve_checked B (init B rbf poly_degree n_points) values =
        Except.error solve_failure.length_assertion := fun h =>
    solve_checked_of_length B _ values h
  have c4 : values.size = n_points →
      solve_checked B (init B rbf poly_degree n_points) values =
        Except.error solve_failure.read_out_of_range := fun h =>
    solve_checked_init B rbf poly_degree n_points hn values h
  refine ⟨c1, c2, c3, c4, ?_, ?_⟩
  · intro out e
    by_cases h : values.size = s.m
    · rw [c2 h] at e
      cases e
    · rw [c1 h] at e
      cases e
  · intro out e
    by_cases h : values.size = n_points
    · rw [c4 h] at e
      cases e
    · rw [c3 h] at e
      cases e

/-- Witness of C13 as amended: the two-point solver, set up with the permutation `[1, 0]`
and cleared, and the two-point solver never set up, with the values `[0, 1]`. -/
theorem solve_without_state_guard_witness :
    solve_checked example2.bases
      (clear (setup example2.bases example2.solver example2.points [1, 0])) example2.values =
        Except.error solve_failure.eigen_assertion ∧
    solve_checked example2.bases (init example2.bases example2.kernel 0 2) example2.values =
      Except.error solve_failure.read_out_of_range :=
  ⟨(solve_without_state_guard example2.bases example2.solver example2.points [1, 0]
      example2.values example2.kernel 0 2 (by decide) (by decide)).2.1 rfl,
    (solve_without_state_guard example2.bases example2.solver example2.points [1, 0]
      example2.values example2.kernel 0 2 (by decide) (by decide)).2.2.2.1 rfl⟩

/-- C13, as stated, fails: neither on the two-point solver that was set up and then
cleared, nor on the two-point solver that was never set up, is every value vector refused
at the entry of `solve`: the vector `[0, 1]` of the correct length 2 passes the only check
there. -/
theorem solve_guarded_counterexample :
    (¬ ∀ values : VectorXF ℚ,
      RefusedAtEntry (solve_checked example2.bases
        (clear (setup example2.bases example2.solver example2.points [1, 0])) values)) ∧
    (¬ ∀ values : VectorXF ℚ,
      RefusedAtEntry (solve_checked example2.bases
        (init example2.bases example2.kernel 0 2) values)) := by
  constructor
  · intro h
    have h1 := h example2.values
    unfold RefusedAtEntry at h1
    rw [solve_checked_clear example2.bases _ (by decide) example2.values rfl] at h1
    cases h1
  · intro h
    have h1 := h example2.values
    unfold RefusedAtEntry at h1
    rw [solve_checked_init example2.bases example2.kernel 0 2 (by decide) example2.values
      rfl] at h1
    cases h1

end ClaimsChecked

end rbf_direct_solver

end polatory
